import Mathlib

/-!
Shallow embedding of the pocker multi-host container aggregation and
version-resolution pipeline, together with proofs about the properties
stated in its specification.

Modelling conventions:
* JavaScript strings are Lean `String`s; string relational operators are
  modelled code-point-wise (UTF-16 surrogate-pair ordering for characters
  above U+FFFF is idealized to code-point order, which agrees on all BMP
  strings).
* JavaScript numbers are modelled as exact values (`ℚ` plus signed
  infinities): IEEE-754 rounding and overflow of astronomically large
  numeric literals is idealized to exact arithmetic.  All version/tag
  comparisons in the source operate on small integer components where the
  two semantics agree.
* `toLowerCase` is modelled on the ASCII range (the only range exercised by
  the comparisons in the source).
* Network calls (Docker API, registry HTTP APIs, CDN probes) are modelled
  as explicit oracles passed in as arguments; caches are explicit state.
-/

/-! ## JavaScript primitive helpers -/

/-- Result value of a JavaScript numeric comparator: a finite number or a
signed infinity (the comparator in the source returns plain subtraction
results, which can be `±Infinity` when a segment parses to `Infinity`). -/
inductive CmpRes where
  | fin (q : ℚ)
  | posInf
  | negInf
deriving DecidableEq, Repr

/-- JavaScript unary minus on a comparator result. -/
def CmpRes.neg : CmpRes → CmpRes
  | .fin q => .fin (-q)
  | .posInf => .negInf
  | .negInf => .posInf

/-- Model of `r < 0` in JavaScript. -/
def CmpRes.isLT : CmpRes → Bool
  | .fin q => decide (q < 0)
  | .posInf => false
  | .negInf => true

/-- Model of `r > 0` in JavaScript. -/
def CmpRes.isGT : CmpRes → Bool
  | .fin q => decide (0 < q)
  | .posInf => true
  | .negInf => false

/-- Model of `r <= 0` in JavaScript. -/
def CmpRes.isLE : CmpRes → Bool
  | .fin q => decide (q ≤ 0)
  | .posInf => false
  | .negInf => true

/-- The characters treated as whitespace by JavaScript's `trim` /
`Number` coercion (ASCII whitespace plus NBSP, BOM and the Unicode line
separators; other exotic Unicode space characters are omitted, none of
which occur in container version strings). -/
def jsIsWhitespace (c : Char) : Bool :=
  c = ' ' || c = '\t' || c = '\n' || c = '\r' || c = '\u000b' || c = '\u000c' ||
  c = '\u00A0' || c = '\uFEFF' || c = '\u2028' || c = '\u2029'

/-- Strip leading and trailing JS whitespace from a character list. -/
def jsTrimList (l : List Char) : List Char :=
  ((l.dropWhile jsIsWhitespace).reverse.dropWhile jsIsWhitespace).reverse

/-- JavaScript `String.prototype.trim`. -/
def jsTrim (s : String) : String :=
  String.mk (jsTrimList s.data)

/-- ASCII lowering of one character (JS `toLowerCase`, restricted to the
ASCII range actually exercised by the source's comparisons). -/
def jsToLowerChar (c : Char) : Char :=
  if 'A' ≤ c ∧ c ≤ 'Z' then Char.ofNat (c.toNat + 32) else c

/-- JavaScript `String.prototype.toLowerCase` (ASCII model). -/
def jsToLower (s : String) : String :=
  String.mk (s.data.map jsToLowerChar)

/-- Lexicographic (code-unit) strict comparison on character lists,
modelling JavaScript's `<` on strings. -/
def charListLt : List Char → List Char → Bool
  | [], [] => false
  | [], _ :: _ => true
  | _ :: _, [] => false
  | a :: as, b :: bs =>
    if a < b then true
    else if b < a then false
    else charListLt as bs

/-- JavaScript `a < b` on strings. -/
def jsStrLt (a b : String) : Bool :=
  charListLt a.data b.data

/-- A JavaScript number that is not `NaN`: a finite value or a signed
infinity. -/
inductive JsNum where
  | fin (q : ℚ)
  | inf (pos : Bool)
deriving DecidableEq, Repr

def isAsciiDigit (c : Char) : Bool := '0' ≤ c && c ≤ '9'

def digitVal (c : Char) : ℕ := c.toNat - '0'.toNat

/-- Decimal value of a digit list. -/
def digitsVal (l : List Char) : ℕ :=
  l.foldl (fun a c => a * 10 + digitVal c) 0

def isHexDigitChar (c : Char) : Bool :=
  ('0' ≤ c && c ≤ '9') || ('a' ≤ c && c ≤ 'f') || ('A' ≤ c && c ≤ 'F')

def hexDigitVal (c : Char) : ℕ :=
  if '0' ≤ c && c ≤ '9' then c.toNat - '0'.toNat
  else if 'a' ≤ c && c ≤ 'f' then c.toNat - 'a'.toNat + 10
  else c.toNat - 'A'.toNat + 10

def hexVal (l : List Char) : ℕ :=
  l.foldl (fun a c => a * 16 + hexDigitVal c) 0

def isOctDigit (c : Char) : Bool := '0' ≤ c && c ≤ '7'

def octVal (l : List Char) : ℕ :=
  l.foldl (fun a c => a * 8 + digitVal c) 0

def isBinDigit (c : Char) : Bool := c = '0' || c = '1'

def binVal (l : List Char) : ℕ :=
  l.foldl (fun a c => a * 2 + digitVal c) 0

/-- Parse an unsigned decimal JS numeric literal without a decimal point:
`digits` optionally followed by an exponent `e`/`E` `[+-]? digits`.
Fractional forms (`1.5`, `.5`) are unreachable at every call site in the
source (both call sites split their input on `.` first), so they are not
modelled. Returns `none` for `NaN`. -/
def parseDecTail (l : List Char) : Option ℚ :=
  let ds := l.takeWhile isAsciiDigit
  let rest := l.drop ds.length
  if ds = [] then none
  else
    match rest with
    | [] => some (digitsVal ds : ℚ)
    | e :: rest2 =>
      if e = 'e' ∨ e = 'E' then
        let signPos : Bool := match rest2 with
          | '-' :: _ => false
          | _ => true
        let expDigits : List Char := match rest2 with
          | '+' :: r => r
          | '-' :: r => r
          | r => r
        if expDigits ≠ [] ∧ expDigits.all isAsciiDigit then
          if signPos then
            some (((digitsVal ds * 10 ^ digitsVal expDigits : ℕ) : ℚ))
          else
            some (mkRat (digitsVal ds) (10 ^ digitsVal expDigits))
        else none
      else none

/-- JavaScript `Number(string)` on a character list (after trimming):
the unsigned alternatives, i.e. `Infinity`, `0x`/`0o`/`0b` literals and
decimal literals. -/
def parseUnsignedNum (l : List Char) : Option JsNum :=
  if l = "Infinity".data then some (.inf true)
  else
    match l with
    | '0' :: x :: rest =>
      if x = 'x' ∨ x = 'X' then
        if rest ≠ [] ∧ rest.all isHexDigitChar then some (.fin (hexVal rest)) else none
      else if x = 'o' ∨ x = 'O' then
        if rest ≠ [] ∧ rest.all isOctDigit then some (.fin (octVal rest)) else none
      else if x = 'b' ∨ x = 'B' then
        if rest ≠ [] ∧ rest.all isBinDigit then some (.fin (binVal rest)) else none
      else (parseDecTail l).map .fin
    | _ => (parseDecTail l).map .fin

/-- JavaScript `Number(string)`: trim, empty means `0`, optional sign
(signs allow only `Infinity` and decimal literals), otherwise the
unsigned alternatives. `none` models `NaN`. -/
def jsNumberList (l0 : List Char) : Option JsNum :=
  let l := jsTrimList l0
  if l = [] then some (.fin 0)
  else
    match l with
    | '+' :: rest =>
      if rest = "Infinity".data then some (.inf true)
      else (parseDecTail rest).map .fin
    | '-' :: rest =>
      if rest = "Infinity".data then some (.inf false)
      else (parseDecTail rest).map (fun q => .fin (-q))
    | _ => parseUnsignedNum l

def jsNumber (s : String) : Option JsNum :=
  jsNumberList s.data

/-- Exact rational subtraction, implemented through `mkRat` so that it is
computable by kernel reduction; `ratSub_eq` below shows it agrees with
`Sub.sub` on `ℚ`. -/
def ratSub (a b : ℚ) : ℚ :=
  mkRat (a.num * b.den - b.num * a.den) (a.den * b.den)

/-- JavaScript subtraction on two non-NaN numbers, as a comparator result.
`Infinity - Infinity` (NaN) is unreachable at both call sites in the
source because equal operands are filtered out by the preceding
strict-equality check; it is mapped to `0`. -/
def jsSub : JsNum → JsNum → CmpRes
  | .fin a, .fin b => .fin (ratSub a b)
  | .inf true, .fin _ => .posInf
  | .inf false, .fin _ => .negInf
  | .fin _, .inf true => .negInf
  | .fin _, .inf false => .posInf
  | .inf a, .inf b => if a = b then .fin 0 else if a then .posInf else .negInf

/-- JavaScript `String(n)` for a non-NaN number. Reachable values at the
only call site (version segments) are natural numbers or `Infinity`;
JS exponential rendering of values ≥ 1e21 is idealized to plain decimal
notation. -/
def jsNumToString : JsNum → String
  | .inf true => "Infinity"
  | .inf false => "-Infinity"
  | .fin q =>
    if q.den = 1 then
      (if q.num < 0 then "-" ++ toString q.num.natAbs else toString q.num.natAbs)
    else toString q.num ++ "/" ++ toString q.den

/-! ## src/lib/utils/version.ts -/

/-- Model of `normalize` from version.ts: falsy (null/undefined/empty) collapses to
`null`, everything else is trimmed. -/
def vNormalize (value : Option String) : Option String :=
  match value with
  | none => none
  | some s => if s = "" then none else some (jsTrim s)

/-- JS falsiness of a nullable string. -/
def jsFalsy : Option String → Bool
  | none => true
  | some s => s = ""

/-- Model of `isLatest` from version.ts. -/
def isLatest (value : Option String) : Bool :=
  match vNormalize value with
  | none => false
  | some s => jsToLower s = "latest"

/-- A version segment, as produced by `segmentify`: a number (when
`Number(segment)` is not NaN) or a lowercased string. -/
inductive Segment where
  | num (v : JsNum)
  | str (s : String)
deriving DecidableEq, Repr

/-- Split a character list at every separator character, keeping empty
chunks, like JS `split` on a character class. -/
def splitOnChars (p : Char → Bool) : List Char → List (List Char)
  | [] => [[]]
  | c :: rest =>
    let r := splitOnChars p rest
    if p c then [] :: r
    else
      match r with
      | h :: t => (c :: h) :: t
      | [] => [[c]]

/-- One segment: numeric when `Number` succeeds, else the lowercased text. -/
def segOf (l : List Char) : Segment :=
  match jsNumberList l with
  | some v => .num v
  | none => .str (String.mk (l.map jsToLowerChar))

/-- Model of `segmentify` from version.ts: strip one leading `v`/`V`, cut at the
first `+` or `-`, split on `.`/`_`, drop empty chunks, coerce each chunk
numerically when possible. -/
def segmentify (value : String) : List Segment :=
  let cleaned : List Char :=
    match value.data with
    | c :: rest => if c = 'v' ∨ c = 'V' then rest else value.data
    | [] => []
  let base := cleaned.takeWhile (fun c => ¬ (c = '+' ∨ c = '-'))
  ((splitOnChars (fun c => c = '.' ∨ c = '_') base).filter (· ≠ [])).map segOf

/-- Model of `isDigest` from version.ts: `/^[a-f0-9]{12,}$/i`. -/
def isDigest (s : String) : Bool :=
  decide (s.data.length ≥ 12) && s.data.all isHexDigitChar

/-- JS strict equality on two segments (`number === number` is value
equality, `string === string` is string equality, mixed is false). -/
def segEq : Segment → Segment → Bool
  | .num a, .num b => a = b
  | .str a, .str b => a = b
  | _, _ => false

/-- Model of `String(segment)`. -/
def segToString : Segment → String
  | .num v => jsNumToString v
  | .str s => s

/-- The segment comparison loop of `compareVersions` (lines 59–75 of
version.ts): missing segments sort lower, equal segments are skipped,
two numbers return their difference, anything else compares stringly. -/
def cmpSegs : List Segment → List Segment → CmpRes
  | [], [] => .fin 0
  | [], _ :: _ => .fin (-1)
  | _ :: _, [] => .fin 1
  | x :: xs, y :: ys =>
    if segEq x y then cmpSegs xs ys
    else
      match x, y with
      | .num a, .num b => jsSub a b
      | _, _ =>
        let ls := segToString x
        let rs := segToString y
        if jsStrLt ls rs then .fin (-1)
        else if jsStrLt rs ls then .fin 1
        else cmpSegs xs ys

/-- Body of `compareVersions` from the point where both sides are known to
be truthy normalized strings (lines 37–77 of version.ts). -/
def compareCore (l r : String) : CmpRes :=
  if l = r then .fin 0
  else if isLatest (some l) ∧ ¬ isLatest (some r) then .fin 1
  else if isLatest (some r) ∧ ¬ isLatest (some l) then .fin (-1)
  else if isDigest l ∧ isDigest r then
    (if jsStrLt l r then .fin (-1) else if jsStrLt r l then .fin 1 else .fin 0)
  else if isDigest l ∧ ¬ isDigest r then .fin 1
  else if isDigest r ∧ ¬ isDigest l then .fin (-1)
  else cmpSegs (segmentify l) (segmentify r)

/-- Model of `compareVersions` from version.ts: both sides are normalized, falsy
values sort lowest, and two truthy values go to `compareCore`. -/
def compareVersions (a b : Option String) : CmpRes :=
  if jsFalsy (vNormalize a) ∧ jsFalsy (vNormalize b) then .fin 0
  else if jsFalsy (vNormalize a) then .fin (-1)
  else if jsFalsy (vNormalize b) then .fin 1
  else compareCore ((vNormalize a).getD "") ((vNormalize b).getD "")

/-! ## src/lib/server/image.ts -/

structure ImageReference where
  registry : Option String
  repository : String
  tag : Option String
  digest : Option String
deriving DecidableEq, Repr

def lastIndexAux (c : Char) : List Char → ℕ → Int → Int
  | [], _, acc => acc
  | x :: xs, i, acc => lastIndexAux c xs (i + 1) (if x = c then (i : Int) else acc)

/-- JS `String.prototype.lastIndexOf` for a single character (`-1` when
absent). -/
def lastIndexOfChar (c : Char) (l : List Char) : Int :=
  lastIndexAux c l 0 (-1)

def joinChar (sep : Char) : List (List Char) → List Char
  | [] => []
  | [x] => x
  | x :: xs => x ++ sep :: joinChar sep xs

/-- Model of `parseImageReference` from image.ts. -/
def parseImageReference (input : String) : ImageReference :=
  let parts := splitOnChars (· = '@') input.data
  let referencePart := parts.headD []
  let digest := (parts.drop 1).head?
  let lastSlash := lastIndexOfChar '/' referencePart
  let lastColon := lastIndexOfChar ':' referencePart
  let tag : Option (List Char) :=
    if lastColon > lastSlash then some (referencePart.drop (lastColon.toNat + 1)) else none
  let path : List Char :=
    if lastColon > lastSlash then referencePart.take lastColon.toNat else referencePart
  let segments := splitOnChars (· = '/') path
  let hasRegistry : Bool :=
    decide (segments.length > 1) &&
      ((segments.headD []).contains '.' || (segments.headD []).contains ':' ||
        decide (segments.headD [] = "localhost".data))
  let registry : Option (List Char) := if hasRegistry then segments.head? else none
  let segs := if hasRegistry then segments.drop 1 else segments
  { registry :=
      if registry = some "docker.io".data then none else registry.map String.mk,
    repository := String.mk (joinChar '/' segs),
    tag := tag.map String.mk,
    digest := digest.map String.mk }

/-- Model of `getImageBase` from image.ts. -/
def getImageBase (ref : ImageReference) : String :=
  let repo := jsTrim (jsToLower ref.repository)
  if jsFalsy ref.registry then repo
  else
    let reg := jsTrim (jsToLower (ref.registry.getD ""))
    if reg = "docker.io" ∨ reg = "index.docker.io" then repo
    else reg ++ "/" ++ repo

/-- Model of `friendlyImageName` from image.ts: the last `/`-separated segment of the
repository. -/
def friendlyImageName (ref : ImageReference) : String :=
  String.mk ((splitOnChars (· = '/') ref.repository.data).getLastD [])

/-- The `namespace`/`repo` split used by metadata.ts (`segments.pop()` twice,
defaulting the namespace to "library"). -/
def nsRepoOf (repository : String) : String × String :=
  let segs := splitOnChars (· = '/') repository.data
  let repo := segs.getLastD []
  let ns := segs.dropLast.getLastD "library".data
  (String.mk ns, String.mk repo)

def digitsThen (l : List Char) : Option (List Char) :=
  let ds := l.takeWhile isAsciiDigit
  if ds = [] then none else some (l.drop ds.length)

def semverCheck (l : List Char) : Bool :=
  let l1 := match l with
    | 'v' :: r => r
    | r => r
  match digitsThen l1 with
  | none => false
  | some r1 =>
    match r1 with
    | '.' :: r2 =>
      match digitsThen r2 with
      | none => false
      | some r3 =>
        match r3 with
        | '.' :: r4 => (digitsThen r4).isSome
        | _ => false
    | _ => false

/-- Model of `isSemanticVersion`: the prefix test `/^v?\d+\.\d+\.\d+/`.  This is the
definition from metadata.ts lines 285–288; the identically-named export of
version.ts (whose file body is not present in the tree) is used by the
aggregator and, per the spec's "Semantic version shape: a string matching
vN.N.N[...]", has the same meaning. -/
def isSemanticVersion (tag : String) : Bool :=
  semverCheck tag.data

/-! ## src/lib/server/aggregator (per-container processing and grouping) -/

/-- The slice of `SourceConfig` relevant to the verified claims; connection
descriptors, credentials, TLS material, timeout override, UI base and color
are used only by the I/O layer and URL/color cosmetics, which are omitted. -/
structure SourceConfig where
  name : String
  displayName : String
deriving DecidableEq, Repr

/-- The slice of dockerode's `ContainerInfo` consumed by the aggregator
(ports are used only to build display URLs, which are omitted). -/
structure ContainerInfo where
  Id : String
  Names : List String
  Image : String
  ImageID : Option String
  State : Option String
  Status : Option String
  Labels : List (String × String)
deriving DecidableEq, Repr

/-- JS object property lookup on a label record. -/
def jsLookup (labels : List (String × String)) (key : String) : Option String :=
  (labels.find? (fun kv => kv.1 = key)).map (·.2)

/-- Model of `getContainerName` from docker-utils: first name with one leading slash
stripped, else the first 12 characters of the id. -/
def getContainerName (c : ContainerInfo) : String :=
  match c.Names.head? with
  | some n =>
    match n.data with
    | '/' :: rest => String.mk rest
    | _ => n
  | none => String.mk (c.Id.data.take 12)

/-- One attempt of the regex `/Exited \((\d+)\)/` at the current position:
the literal `Exited (`, one-or-more digits, then `)`. -/
def tryExitedAt (l : List Char) : Option ℕ :=
  if l.take 8 = "Exited (".data then
    let ds := (l.drop 8).takeWhile isAsciiDigit
    if ds ≠ [] ∧ ((l.drop 8).drop ds.length).head? = some ')' then some (digitsVal ds)
    else none
  else none

/-- Scan for the first match of `/Exited \((\d+)\)/`. -/
def exitedCodeScan : List Char → Option ℕ
  | [] => none
  | c :: rest =>
    match tryExitedAt (c :: rest) with
    | some n => some n
    | none => exitedCodeScan rest

/-- The `ServerInstance` slice relevant to the verified claims (display
URL, ports and color omitted: they are cosmetic and claim-irrelevant). -/
structure ServerInstance where
  sourceId : String
  sourceLabel : String
  containerId : String
  containerName : String
  state : String
  exitCode : Option ℕ
  version : Option String
deriving DecidableEq, Repr

/-- Model of `toServerInstance` from the aggregator: note that the instance's
`version` is the raw `org.opencontainers.image.version` label. -/
def toServerInstance (source : SourceConfig) (c : ContainerInfo) : ServerInstance :=
  { sourceId := source.name
    sourceLabel := source.displayName
    containerId := c.Id
    containerName := getContainerName c
    state := c.State.getD "unknown"
    exitCode :=
      match c.State, c.Status with
      | some st, some stat =>
        if st = "exited" ∧ stat ≠ "" then exitedCodeScan stat.data else none
      | _, _ => none
    version := jsLookup c.Labels "org.opencontainers.image.version" }

/-- Model of `resolveAppId` from the aggregator. -/
def resolveAppId (labels : List (String × String)) (imageBase : String)
    (fallback : String) : String :=
  let hl := jsLookup labels "homelab.app"
  if ¬ jsFalsy hl then hl.getD ""
  else
    let normalizedBase := jsTrim imageBase
    if normalizedBase ≠ "" then normalizedBase
    else
      match jsLookup labels "com.docker.compose.service" with
      | some v => v
      | none =>
        match jsLookup labels "com.docker.swarm.service.name" with
        | some v => v
        | none => fallback

def dedupAppend (seen : List String) (x : String) : List String :=
  if x ∈ seen then seen else seen ++ [x]

/-- Model of `collectTags` from the aggregator: split the four grouping labels on
commas, trim, drop empties, and deduplicate in insertion order. -/
def collectTags (labels : List (String × String)) : List String :=
  (["com.docker.compose.project", "com.docker.stack.namespace",
    "homepage.group", "homelab.group"].map (jsLookup labels)).foldl
    (fun acc v =>
      match v with
      | some value =>
        if value ≠ "" then
          (((splitOnChars (· = ',') value.data).map
            (fun t => jsTrim (String.mk t))).filter (· ≠ "")).foldl dedupAppend acc
        else acc
      | none => acc) []

/-- The aggregated-app record (display icon/description omitted: their
resolution is best-effort network metadata modelled separately for
`resolveIcon`, and failures degrade to null without affecting grouping,
versions, warnings or statistics). -/
structure AggregatedApp where
  id : String
  name : String
  displayName : String
  image : String
  versions : List String
  latestVersion : Option String
  tags : List String
  containers : List ServerInstance
deriving DecidableEq, Repr

structure WorkingApp where
  app : AggregatedApp
  labels : List (String × String)
  iconHint : Option String
  descriptionHint : Option String
deriving DecidableEq, Repr

structure UpsertPayload where
  appName : String
  displayName : String
  image : String
  labels : List (String × String)
  iconHint : Option String
  descriptionHint : Option String
  inst : ServerInstance
  version : Option String
  tags : List String
deriving DecidableEq, Repr

def lookupAssoc {α : Type} (m : List (String × α)) (k : String) : Option α :=
  (m.find? (fun kv => kv.1 = k)).map (·.2)

/-- JS `Map.prototype.set` on an existing key keeps its position. -/
def updateAssoc {α : Type} (m : List (String × α)) (k : String) (f : α → α) :
    List (String × α) :=
  m.map (fun kv => if kv.1 = k then (kv.1, f kv.2) else kv)

def setAssoc {α : Type} (m : List (String × α)) (k : String) (v : α) :
    List (String × α) :=
  if (lookupAssoc m k).isSome then updateAssoc m k (fun _ => v)
  else m ++ [(k, v)]

/-- The `WorkingApp` created on the first sighting of an app id
(upsertWorkingApp lines 236–253). -/
def freshWorkingApp (appId : String) (p : UpsertPayload) : WorkingApp :=
  { app :=
      { id := appId
        name := p.appName
        displayName := p.displayName
        image := p.image
        versions :=
          match p.version with
          | some v => if v ≠ "" then [v] else []
          | none => []
        latestVersion := none
        tags := p.tags
        containers := [p.inst] }
    labels := p.labels
    iconHint := p.iconHint
    descriptionHint := p.descriptionHint }

/-- The merge applied on a repeat sighting (upsertWorkingApp lines
256–272): append the instance, merge version and tag sets, keep the first
truthy hints. -/
def mergeWorkingApp (p : UpsertPayload) (wa : WorkingApp) : WorkingApp :=
  { wa with
    app :=
      { wa.app with
        containers := wa.app.containers ++ [p.inst]
        versions :=
          match p.version with
          | some v =>
            if v ≠ "" ∧ v ∉ wa.app.versions then wa.app.versions ++ [v]
            else wa.app.versions
          | none => wa.app.versions
        tags := p.tags.foldl dedupAppend wa.app.tags }
    iconHint :=
      if jsFalsy wa.iconHint ∧ ¬ jsFalsy p.iconHint then p.iconHint else wa.iconHint
    descriptionHint :=
      if jsFalsy wa.descriptionHint ∧ ¬ jsFalsy p.descriptionHint then p.descriptionHint
      else wa.descriptionHint }

/-- Model of `upsertWorkingApp` from the aggregator: first sighting creates the app,
later sightings merge into the existing entry (a JS `Map` keeps insertion
order, so a new key is appended). -/
def upsertWorkingApp (m : List (String × WorkingApp)) (appId : String)
    (p : UpsertPayload) : List (String × WorkingApp) :=
  match lookupAssoc m appId with
  | none => m ++ [(appId, freshWorkingApp appId p)]
  | some _ => updateAssoc m appId (mergeWorkingApp p)

def isHexLower (c : Char) : Bool :=
  ('0' ≤ c && c ≤ '9') || ('a' ≤ c && c ≤ 'f')

/-- Scan for the first match of `/@(sha256:[a-f0-9]+)/`, returning the
capture group. -/
def atDigestScan : List Char → Option (List Char)
  | [] => none
  | c :: rest =>
    if c = '@' ∧ rest.take 7 = "sha256:".data ∧
        isHexLower ((rest.drop 7).headD ' ') then
      some ("sha256:".data ++ (rest.drop 7).takeWhile isHexLower)
    else atDigestScan rest

/-- The digest candidate used for the synchronous version fallback
(aggregator lines 662–666): a `sha256:`-prefixed ImageID, else the first
`@sha256:<hex>` occurrence in the image string. -/
def imageDigestOf (c : ContainerInfo) : Option String :=
  match c.ImageID with
  | some iid =>
    if iid.data.take 7 = "sha256:".data then some iid
    else (atDigestScan c.Image.data).map String.mk
  | none => (atDigestScan c.Image.data).map String.mk

/-- JS `replace('sha256:', '')`: drop the first occurrence of the literal. -/
def replaceFirstSha : List Char → List Char
  | [] => []
  | c :: rest =>
    if (c :: rest).take 7 = "sha256:".data then rest.drop 6
    else c :: replaceFirstSha rest

/-- The synchronous version extraction of the aggregator (lines 660–685):
semantic label, else a non-latest/nightly tag, else any truthy label, else
any truthy tag, else the first 12 characters of the digest. -/
def extractVersion (labels : List (String × String)) (ref : ImageReference)
    (imageDigest : Option String) : Option String :=
  let versionLabel := jsLookup labels "org.opencontainers.image.version"
  if ¬ jsFalsy versionLabel ∧ isSemanticVersion (versionLabel.getD "") then versionLabel
  else if ¬ jsFalsy ref.tag ∧ ref.tag ≠ some "latest" ∧ ref.tag ≠ some "nightly" then ref.tag
  else if ¬ jsFalsy versionLabel then versionLabel
  else if ¬ jsFalsy ref.tag then ref.tag
  else
    match imageDigest with
    | some d =>
      if d ≠ "" then some (String.mk ((replaceFirstSha d.data).take 12)) else none
    | none => none

/-- The app name of one container (`homelab.name` label, else the friendly
image name). -/
def appNameOf (c : ContainerInfo) : String :=
  match jsLookup c.Labels "homelab.name" with
  | some v => v
  | none => friendlyImageName (parseImageReference c.Image)

/-- The display name of one container (`homelab.display` label, else the
app name). -/
def displayNameOf (c : ContainerInfo) : String :=
  match jsLookup c.Labels "homelab.display" with
  | some v => v
  | none => appNameOf c

/-- The grouping key computed for one container (aggregator lines 651–655). -/
def appIdOfContainer (c : ContainerInfo) : String :=
  resolveAppId c.Labels (getImageBase (parseImageReference c.Image)) (appNameOf c)

/-- The upsert payload built for one container (aggregator lines 689–699). -/
def payloadOf (source : SourceConfig) (c : ContainerInfo) : UpsertPayload :=
  { appName := appNameOf c
    displayName := displayNameOf c
    image := c.Image
    labels := c.Labels
    iconHint := jsLookup c.Labels "homelab.icon"
    descriptionHint := jsLookup c.Labels "homelab.description"
    inst := toServerInstance source c
    version := extractVersion c.Labels (parseImageReference c.Image) (imageDigestOf c)
    tags := collectTags c.Labels }

/-- One step of the aggregation loop: compute identity, version and payload
for one container and upsert it (aggregator lines 648–701). -/
def processContainer (m : List (String × WorkingApp)) (source : SourceConfig)
    (c : ContainerInfo) : List (String × WorkingApp) :=
  upsertWorkingApp m (appIdOfContainer c) (payloadOf source c)

/-- Stable insertion respecting a JS comparator: `x` goes before the first
element it does not compare greater than. -/
def jsInsert {α : Type} (c : α → α → CmpRes) (x : α) : List α → List α
  | [] => [x]
  | y :: ys => if (c x y).isLE then x :: y :: ys else y :: jsInsert c x ys

/-- JS `Array.prototype.sort` with a comparator, modelled as stable
insertion sort (for every consistent comparator this is the result of any
conforming stable sort, which `Array#sort` is). -/
def jsSort {α : Type} (c : α → α → CmpRes) : List α → List α
  | [] => []
  | x :: xs => jsInsert c x (jsSort c xs)

/-- Three-way code-unit string comparison; used both for JS default `sort()`
and as the model of `localeCompare` (locale collation idealized to
code-unit order). -/
def codeUnitCmp (a b : String) : CmpRes :=
  if jsStrLt a b then .fin (-1) else if jsStrLt b a then .fin 1 else .fin 0

/-- The comparator passed to `versions.sort(compareVersions)`. -/
def cmpVerStr (a b : String) : CmpRes :=
  compareVersions (some a) (some b)

/-- Per-app finalization (aggregator lines 703–737): sort the version set
with the comparator, take the last element as `latestVersion`, and sort the
instances by host label.  Icon/description resolution is external
best-effort metadata and does not touch these fields. -/
def finalizeApp (wa : WorkingApp) : AggregatedApp :=
  { wa.app with
    versions := jsSort cmpVerStr wa.app.versions
    latestVersion := (jsSort cmpVerStr wa.app.versions).getLast?
    containers := jsSort (fun a b => codeUnitCmp a.sourceLabel b.sourceLabel) wa.app.containers }

structure SourceWarning where
  source : String
  message : String
deriving DecidableEq, Repr

/-- Per-host statistics (the claim-relevant counting fields; the copied
system-info fields — memory, storage, docker version, etc. — are omitted). -/
structure ServerStats where
  sourceId : String
  sourceLabel : String
  total : ℕ
  running : ℕ
  stopped : ℕ
  crashed : ℕ
  outdated : ℕ
deriving DecidableEq, Repr

/-- The fresh statistics record created on the first sighting of a host
(aggregator lines 755–774; the copied system-info fields are omitted). -/
def freshStats (c : ServerInstance) : ServerStats :=
  { sourceId := c.sourceId, sourceLabel := c.sourceLabel,
    total := 0, running := 0, stopped := 0, crashed := 0, outdated := 0 }

def bumpTotal (s : ServerStats) : ServerStats :=
  { s with total := s.total + 1 }

/-- The crashed increment: a stopped instance with a non-null, non-zero
exit code (aggregator lines 782–784). -/
def bumpCrashed (c : ServerInstance) (s : ServerStats) : ServerStats :=
  match c.exitCode with
  | some ec => if ec ≠ 0 then { s with crashed := s.crashed + 1 } else s
  | none => s

/-- Running/stopped/crashed counting (aggregator lines 778–785). -/
def bumpRunState (c : ServerInstance) (s : ServerStats) : ServerStats :=
  if c.state = "running" then { s with running := s.running + 1 }
  else bumpCrashed c { s with stopped := s.stopped + 1 }

/-- The outdated increment (aggregator lines 787–792): guarded on both the
app's `latestVersion` and the instance's version label being truthy. -/
def bumpOutdated (app : AggregatedApp) (c : ServerInstance) (s : ServerStats) : ServerStats :=
  if ¬ jsFalsy app.latestVersion ∧ ¬ jsFalsy c.version then
    (if (compareVersions c.version app.latestVersion).isLT then
      { s with outdated := s.outdated + 1 }
    else s)
  else s

def bumpStats (app : AggregatedApp) (c : ServerInstance) (s : ServerStats) : ServerStats :=
  bumpOutdated app c (bumpRunState c (bumpTotal s))

/-- One step of the statistics fold (aggregator lines 750–796). -/
def statsStep (m : List (String × ServerStats)) (p : AggregatedApp × ServerInstance) :
    List (String × ServerStats) :=
  setAssoc m p.2.sourceLabel
    (bumpStats p.1 p.2 ((lookupAssoc m p.2.sourceLabel).getD (freshStats p.2)))

/-- The aggregate response (the `generatedAt` timestamp and the
`showComposeTags` configuration passthrough are omitted). -/
structure AppsResponse where
  apps : List AggregatedApp
  appFilters : List String
  serverFilters : List String
  warnings : List SourceWarning
  serverStats : List ServerStats
  totalContainers : ℕ
deriving DecidableEq, Repr

/-- The app/instance pairs the statistics fold iterates over. -/
def statPairs (appList : List AggregatedApp) : List (AggregatedApp × ServerInstance) :=
  appList.flatMap (fun app => app.containers.map (fun c => (app, c)))

/-- The warnings produced during fan-out: one entry per rejected source
(aggregator lines 592–607). -/
def warningsOf (fetches : List (SourceConfig × Except String (List ContainerInfo))) :
    List SourceWarning :=
  fetches.filterMap (fun sr =>
    match sr.2 with
    | .error e => some { source := sr.1.name, message := e }
    | .ok _ => none)

/-- The per-source container lists after fan-out: a rejected source
contributes an empty list. -/
def containerMatrixOf (fetches : List (SourceConfig × Except String (List ContainerInfo))) :
    List (SourceConfig × List ContainerInfo) :=
  fetches.map (fun sr =>
    (sr.1, match sr.2 with
           | .ok cs => cs
           | .error _ => ([] : List ContainerInfo)))

/-- The grouping map after the nested aggregation loops. -/
def workingMapOf (fetches : List (SourceConfig × Except String (List ContainerInfo))) :
    List (String × WorkingApp) :=
  (containerMatrixOf fetches).foldl
    (fun m sc => sc.2.foldl (fun m2 c => processContainer m2 sc.1 c) m) []

/-- The finalized, display-name-sorted app list. -/
def appListOf (fetches : List (SourceConfig × Except String (List ContainerInfo))) :
    List AggregatedApp :=
  jsSort (fun a b => codeUnitCmp a.displayName b.displayName)
    ((workingMapOf fetches).map (fun kv => finalizeApp kv.2))

/-- Model of `getAggregatedApps`, modelled on the per-source fetch outcomes: an
`Except` value per configured source stands for the settled promise of that
source's `listContainers` call (error = rejection message).  A rejection
contributes one warning and an empty container list (lines 591–608); the
rest is the grouping fold, per-app finalization, sorting, and the
statistics fold of the source. -/
def getAggregatedAppsModel
    (fetches : List (SourceConfig × Except String (List ContainerInfo))) : AppsResponse :=
  let appList := appListOf fetches
  let pairs := statPairs appList
  { apps := appList
    appFilters := jsSort codeUnitCmp ((appList.map (·.displayName)).foldl dedupAppend [])
    serverFilters := jsSort codeUnitCmp ((pairs.map (·.2.sourceLabel)).foldl dedupAppend [])
    warnings := warningsOf fetches
    serverStats := jsSort (fun a b => codeUnitCmp a.sourceLabel b.sourceLabel)
      ((pairs.foldl statsStep []).map (·.2))
    totalContainers := pairs.length }

/-- Membership of an instance anywhere in the working map. -/
def instMem (m : List (String × WorkingApp)) (i : ServerInstance) : Prop :=
  ∃ kv ∈ m, i ∈ kv.2.app.containers

/-- One grouping step over a (source, container) pair. -/
def procStep (m : List (String × WorkingApp)) (p : SourceConfig × ContainerInfo) :
    List (String × WorkingApp) :=
  processContainer m p.1 p.2

/-- The flattened iteration order of the nested per-source/per-container
loops. -/
def flatPairs (matrix : List (SourceConfig × List ContainerInfo)) :
    List (SourceConfig × ContainerInfo) :=
  matrix.flatMap (fun sc => sc.2.map (fun c => (sc.1, c)))

def c2source : SourceConfig := { name := "s1", displayName := "Host 1" }

def c2container (i img : String) : ContainerInfo :=
  { Id := i, Names := ["/" ++ i], Image := img, ImageID := none,
    State := some "running", Status := none, Labels := [] }

/-- Three containers of one image repository whose tags `2`, `10`, `1a`
form a comparator cycle (`2 < 10`, `10 < 1a`, `1a < 2`). -/
def c2fetches : List (SourceConfig × Except String (List ContainerInfo)) :=
  [(c2source, .ok [c2container "c1" "app:2", c2container "c2" "app:10",
                   c2container "c3" "app:1a"])]

/-- A transitive instance used to witness the amended C2. -/
def c2wfetches : List (SourceConfig × Except String (List ContainerInfo)) :=
  [(c2source, .ok [c2container "c1" "app:1.0", c2container "c2" "app:2.0"])]

def emptyAggregatedApp : AggregatedApp :=
  { id := "", name := "", displayName := "", image := "", versions := [],
    latestVersion := none, tags := [], containers := [] }

def c2wApp : AggregatedApp :=
  ((getAggregatedAppsModel c2wfetches).apps).headD emptyAggregatedApp

/-- The "outdated" predicate of the claim, for a host label `h`: the
instance belongs to `h`, both the app's `latestVersion` and the instance's
version label are truthy, and the instance's version compares strictly
less than the app's `latestVersion`. -/
def outdatedPred (h : String) (p : AggregatedApp × ServerInstance) : Bool :=
  decide (p.2.sourceLabel = h) && !(jsFalsy p.1.latestVersion) && !(jsFalsy p.2.version) &&
    (compareVersions p.2.version p.1.latestVersion).isLT

/-- The "crashed" predicate of the claim, for a host label `h`: a stopped
(non-running) instance of `h` with a non-null, non-zero exit code. -/
def crashedPred (h : String) (p : AggregatedApp × ServerInstance) : Bool :=
  decide (p.2.sourceLabel = h) && decide (¬ p.2.state = "running") &&
    (match p.2.exitCode with
     | some ec => decide (ec ≠ 0)
     | none => false)

/-- The claim's own "outdated" predicate, following the claim's words with
no truthiness guard: the instance belongs to `h` and its version compares
strictly below the owning app's `latestVersion` under the comparator
(under which `compare(null, v) = -1` for truthy `v`). -/
def specOutdatedPred (h : String) (p : AggregatedApp × ServerInstance) : Bool :=
  decide (p.2.sourceLabel = h) && (compareVersions p.2.version p.1.latestVersion).isLT

/-- One app, two running containers pinned by image tag only: neither
carries an `org.opencontainers.image.version` label. -/
def c3cfetches : List (SourceConfig × Except String (List ContainerInfo)) :=
  [(c2source, .ok [c2container "c1" "web:1.0", c2container "c2" "web:2.0"])]

def c3fetches : List (SourceConfig × Except String (List ContainerInfo)) :=
  [(c2source, .ok [
    { Id := "c1", Names := ["/a"], Image := "app:1.0", ImageID := none,
      State := some "running", Status := none,
      Labels := [("org.opencontainers.image.version", "1.0")] },
    { Id := "c2", Names := ["/b"], Image := "app:2.0", ImageID := none,
      State := some "exited", Status := some "Exited (1) 2 hours ago",
      Labels := [] }])]

def defaultServerStats : ServerStats :=
  { sourceId := "", sourceLabel := "", total := 0, running := 0, stopped := 0,
    crashed := 0, outdated := 0 }

def c3St : ServerStats :=
  ((getAggregatedAppsModel c3fetches).serverStats).headD defaultServerStats

def c4src1 : SourceConfig := { name := "s1", displayName := "Host 1" }

def c4src2 : SourceConfig := { name := "s2", displayName := "Host 2" }

def c4c1 : ContainerInfo := c2container "c1" "web:1.0"

def c4pre : List (SourceConfig × Except String (List ContainerInfo)) :=
  [(c4src1, Except.ok [c4c1])]

/-! ## src/lib/server/metadata.ts : digest → tag resolution -/

/-- One entry of the Docker Hub tags payload (`results[]`). -/
structure TagResult where
  name : String
  digest : Option String
  images : List (Option String)
deriving DecidableEq, Repr

/-- The parsed Docker Hub tags-page payload. -/
structure TagsPayload where
  results : Option (List TagResult)
  next : Option String
deriving DecidableEq, Repr

/-- The outcome of one tags-page fetch: HTTP 404, a thrown error (network
failure or non-ok status), or a parsed payload. -/
inductive HubResponse where
  | notFound
  | failure
  | ok (payload : TagsPayload)
deriving Repr

/-- Model of `replace(/^sha256:/, '')`: strip an anchored `sha256:` prefix. -/
def stripShaAnchor (l : List Char) : List Char :=
  if l.take 7 = "sha256:".data then l.drop 7 else l

/-- Model of `[tag.digest, ...images.map(i => i.digest)].filter(Boolean)`. -/
def tagDigests (t : TagResult) : List String :=
  ((t.digest :: t.images).filterMap id).filter (fun s => s ≠ "")

/-- Whether one tag entry carries the queried digest. -/
def tagMatches (normalizedDigest : List Char) (t : TagResult) : Bool :=
  (tagDigests t).any (fun td => stripShaAnchor td.data = normalizedDigest)

/-- The per-page matching loop (metadata.ts lines 370–395): semantic
matches are collected, the first non-semantic non-"latest" match is kept
as the fallback. -/
def processTags (normalizedDigest : List Char) :
    List TagResult → Option String × List String → Option String × List String
  | [], st => st
  | t :: ts, (foundTag, semVers) =>
    if tagMatches normalizedDigest t then
      if isSemanticVersion t.name then
        processTags normalizedDigest ts (foundTag, semVers ++ [t.name])
      else if foundTag = none ∧ t.name ≠ "latest" then
        processTags normalizedDigest ts (some t.name, semVers)
      else processTags normalizedDigest ts (foundTag, semVers)
    else processTags normalizedDigest ts (foundTag, semVers)

/-- Model of `replace(/^v/i, '')`. -/
def stripV (l : List Char) : List Char :=
  match l with
  | c :: r => if c = 'v' ∨ c = 'V' then r else l
  | [] => []

/-- Model of `x || 0` on an array slot that may be missing or NaN. -/
def jsOr0 (v : Option (Option JsNum)) : JsNum :=
  match v with
  | some (some n) => n
  | some none => .fin 0
  | none => .fin 0

/-- The comparator body of `semanticVersions.sort` (metadata.ts lines
408–418): dot components coerced with `Number`, missing/NaN as `0`,
descending by the first differing component. -/
def rcmpNil : List (Option JsNum) → CmpRes
  | [] => .fin 0
  | b :: bs =>
    if jsOr0 (some b) = jsOr0 none then rcmpNil bs
    else jsSub (jsOr0 (some b)) (jsOr0 none)

/-- The two-pointer comparison loop itself; once the left list is
exhausted the remaining slots compare against `0` via `rcmpNil` (split
out so that the recursion is structural). -/
def rcmpAux : List (Option JsNum) → List (Option JsNum) → CmpRes
  | [], bs => rcmpNil bs
  | a :: as, [] =>
    if jsOr0 (some a) = jsOr0 none then rcmpAux as []
    else jsSub (jsOr0 none) (jsOr0 (some a))
  | a :: as, b :: bs =>
    if jsOr0 (some a) = jsOr0 (some b) then rcmpAux as bs
    else jsSub (jsOr0 (some b)) (jsOr0 (some a))

/-- The tag-sorting comparator used by the digest resolvers. -/
def rcmp (a b : String) : CmpRes :=
  rcmpAux ((splitOnChars (· = '.') (stripV a.data)).map jsNumberList)
    ((splitOnChars (· = '.') (stripV b.data)).map jsNumberList)

/-- The final tag selection (metadata.ts lines 405–421): when any
semantic-shaped match was collected, sort them with `rcmp` (descending)
and take the first; otherwise keep the non-semantic fallback. -/
def finalizeTagChoice (st : Option String × List String) : Option String :=
  match jsSort rcmp st.2 with
  | [] => st.1
  | v :: _ => some v

/-- The digest→tag cache: key → (resolved tag or "not found", expiry). -/
def TagCache : Type := List (String × (Option String × Int))

def yearTtlMs : Int := 365 * 24 * 60 * 60 * 1000

/-- The Docker Hub cache key `tag:namespace/repo:digest` (note: the raw
digest, not the normalized form, is part of the key). -/
def dhCacheKey (ref : ImageReference) (digest : String) : String :=
  "tag:" ++ (nsRepoOf ref.repository).1 ++ "/" ++ (nsRepoOf ref.repository).2 ++ ":" ++ digest

structure ResolveOutcome where
  result : Option String
  cache : TagCache
  fetches : ℕ

/-- The paginated Docker Hub tag-listing loop (`while (page <= 5)`,
metadata.ts lines 343–403), with an explicit page budget.  Returns `none`
when an iteration throws (non-ok response), in which case the enclosing
`catch` returns null without caching; `fetches` counts page requests. -/
def dhLoop (env : ℕ → HubResponse) (nd : List Char) :
    ℕ → ℕ → Option String × List String → ℕ →
    Option (Option String × List String) × ℕ
  | 0, _, st, fetches => (some st, fetches)
  | pagesLeft + 1, page, st, fetches =>
    match env page with
    | .notFound => (some st, fetches + 1)
    | .failure => (none, fetches + 1)
    | .ok payload =>
      match payload.results with
      | none => (some st, fetches + 1)
      | some results =>
        if results = [] then (some st, fetches + 1)
        else
          if jsFalsy payload.next then
            (some (processTags nd results st), fetches + 1)
          else dhLoop env nd pagesLeft (page + 1) (processTags nd results st) (fetches + 1)

/-- The body of the Docker Hub resolver after a cache miss. -/
def dhResolveBody (env : ℕ → HubResponse) (cache : TagCache) (now : Int)
    (ref : ImageReference) (digest : String) : ResolveOutcome :=
  match dhLoop env (stripShaAnchor digest.data) 5 1 (none, []) 0 with
  | (none, n) => { result := none, cache := cache, fetches := n }
  | (some st, n) =>
    { result := finalizeTagChoice st
      cache := setAssoc cache (dhCacheKey ref digest)
        (finalizeTagChoice st, now + yearTtlMs)
      fetches := n }

/-- Model of `resolveVersionFromDigestDockerHub`: serve a fresh cache entry without
network access, otherwise run the paginated lookup and cache the outcome
(tag or "not found") with the one-year TTL. -/
def resolveVersionFromDigestDockerHub (env : ℕ → HubResponse) (cache : TagCache)
    (now : Int) (ref : ImageReference) (digest : String) : ResolveOutcome :=
  match lookupAssoc cache (dhCacheKey ref digest) with
  | some entry =>
    if entry.2 > now then { result := entry.1, cache := cache, fetches := 0 }
    else dhResolveBody env cache now ref digest
  | none => dhResolveBody env cache now ref digest

/-- The GHCR owner/imageName split (metadata.ts lines 446–449). -/
def ghcrOwnerImage (repository : String) : String × String :=
  let segs := splitOnChars (· = '/') repository.data
  let owner := String.mk (segs.headD [])
  let repo := if segs.length > 1 then String.mk (segs.getD 1 []) else String.mk (segs.headD [])
  let imageName := if segs.length > 2 then String.mk (joinChar '/' (segs.drop 1)) else repo
  (owner, imageName)

def ghcrCacheKey (ref : ImageReference) (digest : String) : String :=
  "tag:ghcr.io/" ++ (ghcrOwnerImage ref.repository).1 ++ "/" ++
    (ghcrOwnerImage ref.repository).2 ++ ":" ++ digest

structure GhcrManifest where
  digest : Option String
  configDigest : Option String
deriving DecidableEq, Repr

inductive GhcrTagsResponse where
  | notFound
  | failure
  | ok (tags : Option (List String))
deriving Repr

inductive GhcrManifestResponse where
  | failure
  | ok (m : GhcrManifest)
deriving Repr

/-- The GHCR network oracle: the anonymous pull token (best-effort, used
only for request headers, which are not modelled), the tag listing, and
the per-tag manifest fetch. -/
structure GhcrEnv where
  token : Option String
  tags : GhcrTagsResponse
  manifest : String → GhcrManifestResponse

/-- The per-tag manifest loop of the GHCR resolver (metadata.ts lines
512–554); a failed manifest fetch skips the tag. -/
def ghcrTagLoop (env : GhcrEnv) (nd : List Char) :
    List String → Option String × List String → ℕ → (Option String × List String) × ℕ
  | [], st, n => (st, n)
  | tag :: ts, (foundTag, semVers), n =>
    match env.manifest tag with
    | .failure => ghcrTagLoop env nd ts (foundTag, semVers) (n + 1)
    | .ok m =>
      let md : Option String := if jsFalsy m.digest then m.configDigest else m.digest
      if ¬ jsFalsy md ∧ stripShaAnchor (md.getD "").data = nd then
        (if isSemanticVersion tag then
          ghcrTagLoop env nd ts (foundTag, semVers ++ [tag]) (n + 1)
        else if foundTag = none ∧ tag ≠ "latest" then
          ghcrTagLoop env nd ts (some tag, semVers) (n + 1)
        else ghcrTagLoop env nd ts (foundTag, semVers) (n + 1))
      else ghcrTagLoop env nd ts (foundTag, semVers) (n + 1)

/-- The body of the GHCR resolver after a cache miss: one token fetch, one
tags fetch, then bounded manifest fetches.  404 / thrown / missing / empty
tag lists return null without caching. -/
def ghcrResolveBody (env : GhcrEnv) (cache : TagCache) (now : Int)
    (ref : ImageReference) (digest : String) : ResolveOutcome :=
  match env.tags with
  | .notFound => { result := none, cache := cache, fetches := 2 }
  | .failure => { result := none, cache := cache, fetches := 2 }
  | .ok none => { result := none, cache := cache, fetches := 2 }
  | .ok (some tags) =>
    if tags = [] then { result := none, cache := cache, fetches := 2 }
    else
      match ghcrTagLoop env (stripShaAnchor digest.data) (tags.take 100) (none, []) 2 with
      | (st, n) =>
        { result := finalizeTagChoice st
          cache := setAssoc cache (ghcrCacheKey ref digest)
            (finalizeTagChoice st, now + yearTtlMs)
          fetches := n }

/-- Model of `resolveVersionFromDigestGHCR`. -/
def resolveVersionFromDigestGHCR (env : GhcrEnv) (cache : TagCache) (now : Int)
    (ref : ImageReference) (digest : String) : ResolveOutcome :=
  match lookupAssoc cache (ghcrCacheKey ref digest) with
  | some entry =>
    if entry.2 > now then { result := entry.1, cache := cache, fetches := 0 }
    else ghcrResolveBody env cache now ref digest
  | none => ghcrResolveBody env cache now ref digest

/-- Model of `resolveVersionFromDigest`: registry dispatch (metadata.ts lines
291–315) — the default registry and ghcr.io are supported, anything else
returns null without touching the network or the cache. -/
def resolveVersionFromDigest (dockerHubEnabled : Bool) (envDH : ℕ → HubResponse)
    (envG : GhcrEnv) (cache : TagCache) (now : Int) (ref : ImageReference)
    (digest : String) : ResolveOutcome :=
  if ¬ dockerHubEnabled then { result := none, cache := cache, fetches := 0 }
  else
    if jsFalsy ref.registry ∨ ref.registry.map (fun r => jsTrim (jsToLower r)) = some "docker.io" ∨
        ref.registry.map (fun r => jsTrim (jsToLower r)) = some "index.docker.io" then
      resolveVersionFromDigestDockerHub envDH cache now ref digest
    else if ref.registry.map (fun r => jsTrim (jsToLower r)) = some "ghcr.io" then
      resolveVersionFromDigestGHCR envG cache now ref digest
    else { result := none, cache := cache, fetches := 0 }

/-- A one-page Docker Hub oracle whose single tag `1.2.3` carries the
queried digest. -/
def c5envDH : ℕ → HubResponse := fun _ =>
  .ok { results := some [{ name := "1.2.3", digest := some "sha256:abc", images := [] }],
        next := none }

/-- A Docker Hub oracle that fails every request. -/
def c5envDH2 : ℕ → HubResponse := fun _ => .failure

/-- A GHCR oracle that fails every request. -/
def c5envG : GhcrEnv := { token := none, tags := .failure, manifest := fun _ => .failure }

/-- A bare Docker-Hub-style image reference. -/
def c5ref : ImageReference :=
  { registry := none, repository := "pocker", tag := none, digest := none }

/-! ## C6: the digest resolvers' tag ordering versus `compareVersions` -/

/-- Padded lexicographic comparison of dot-component numeral lists; this is
the numeric order that `rcmp` implements on purely numeric tags (a missing
component counts as `0`, exactly like `Number(undefined || 0)`). -/
def vcmpNil : List ℕ → Ordering
  | [] => .eq
  | b :: bs => if b = 0 then vcmpNil bs else .lt

def vcmp : List ℕ → List ℕ → Ordering
  | [], bs => vcmpNil bs
  | a :: as, [] => if a = 0 then vcmp as [] else .gt
  | a :: as, b :: bs => if a = b then vcmp as bs else if a < b then .lt else .gt

/-- A numeric segment, as `segmentify` produces for a digit-only chunk. -/
def natSeg (n : ℕ) : Segment := .num (.fin n)

/-- A present, numeric dot-component slot, as `rcmp` sees it. -/
def pureSlot (n : ℕ) : Option JsNum := some (.fin (n : ℚ))

/-- The dot components that `rcmp` compares: the tag with one leading
`v`/`V` stripped, split on `.`. -/
def digitComps (s : String) : List (List Char) :=
  splitOnChars (· = '.') (stripV s.data)

/-- A purely numeric version tag: at least two dot components, each a
non-empty run of ASCII digits (`1.2.3`, `v1.30.0`, …). -/
def pureNumericTag (s : String) : Bool :=
  decide (2 ≤ (digitComps s).length) &&
  (digitComps s).all (fun c => (decide (c ≠ [])) && c.all isAsciiDigit)

/-- The numeric values of a purely numeric tag's dot components. -/
def pureVals (s : String) : List ℕ :=
  (digitComps s).map digitsVal

/-- The digest-matching tag names of semantic-version shape, in scan
order. -/
def semNames (nd : List Char) (ts : List TagResult) : List String :=
  (ts.filter (fun t => tagMatches nd t && isSemanticVersion t.name)).map (fun t => t.name)

/-- The non-semantic fallback: the first digest-matching tag that is not
semantic-shaped and not `latest`. -/
def fallbackName (nd : List Char) (ts : List TagResult) : Option String :=
  (ts.find? (fun t =>
    tagMatches nd t && !isSemanticVersion t.name && t.name != "latest")).map (fun t => t.name)

/-- A Docker Hub oracle serving one fixed page of results with no `next`
link. -/
def onePage (results : List TagResult) : ℕ → HubResponse := fun _ =>
  .ok { results := some results, next := none }

/-- Classification of a comparator result by sign. -/
def cmpSign : CmpRes → Ordering
  | .fin q => if q < 0 then .lt else if 0 < q then .gt else .eq
  | .posInf => .gt
  | .negInf => .lt

/-- A Docker-Hub-style reference for exercising the digest resolvers. -/
def c6ref : ImageReference :=
  { registry := none, repository := "acme/app", tag := none, digest := none }

/-- Two tags carrying the same digest: a semantic-shaped pre-release and a
lower patch release. -/
def c6results : List TagResult :=
  [ { name := "1.2.3-beta", digest := some "sha256:d1", images := [] },
    { name := "1.2.2", digest := some "sha256:d1", images := [] } ]

/-- Three tags carrying one digest: two purely numeric semantic tags and
`latest`. -/
def c6wresults : List TagResult :=
  [ { name := "v1.2.10", digest := some "sha256:d2", images := [] },
    { name := "1.2.2", digest := some "sha256:d2", images := [] },
    { name := "latest", digest := some "sha256:d2", images := [] } ]

/-! ## C8: `resolveIcon` — the icon-map override is authoritative -/

/-- Model of `sanitizeUrl` (metadata.ts lines 35–44): falsy input and unparsable
URLs give `null`, non-http(s) schemes give `null`, otherwise the URL is
returned.  The WHATWG `URL` constructor is idealized: a string parses as
http(s) iff it starts with `http://` or `https://` followed by at least
one character, and `toString` is the identity on such already-normalized
URLs. -/
def jsSanitizeUrl (v : Option String) : Option String :=
  match v with
  | none => none
  | some s =>
    if s = "" then none
    else if s.data.take 7 = "http://".data ∧ 7 < s.data.length then some s
    else if s.data.take 8 = "https://".data ∧ 8 < s.data.length then some s
    else none

/-- The icon/description pair returned by the Docker Hub metadata
fetchers. -/
structure HubMetadata where
  icon : Option String
  description : Option String

/-- Oracles for the five network icon providers consulted after the label
and icon-map tiers: the selfh.st CDN, the HypoLuxa dashboard-icons CDN,
and the three Docker Hub metadata endpoints. -/
structure IconProviders where
  selfhst : ImageReference → Option String
  hypoluxa : ImageReference → Option String
  repoMeta : ImageReference → Option HubMetadata
  productMeta : ImageReference → Option HubMetadata
  hubMeta : ImageReference → Option HubMetadata

/-- Model of `MetadataContext` from metadata.ts. -/
structure MetadataContext where
  image : String
  labels : List (String × String)
  descriptionHint : Option String
  iconHint : Option String

/-- The label tier: `iconHint ?? labels['homelab.icon'] ?? labels['app.icon']
?? labels['icon']`. -/
def labelIconOf (ctx : MetadataContext) : Option String :=
  ctx.iconHint.orElse (fun _ =>
    (jsLookup ctx.labels "homelab.icon").orElse (fun _ =>
      (jsLookup ctx.labels "app.icon").orElse (fun _ =>
        jsLookup ctx.labels "icon")))

/-- Model of `if (x) return x; …`: keep a truthy value, otherwise continue. -/
def firstTruthy (a : Option String) (b : Unit → Option String) : Option String :=
  if jsFalsy a then b () else a

/-- One icon-map probe: look the key up, and if the entry is truthy try to
sanitize it. -/
def mapTier (iconMap : List (String × String)) (key : String) : Option String :=
  match jsLookup iconMap key with
  | some v => if v ≠ "" then jsSanitizeUrl (some v) else none
  | none => none

/-- The exact-image icon-map probe. -/
def exactTier (iconMap : List (String × String)) (image : String) : Option String :=
  mapTier iconMap image

/-- The repository-base icon-map probe. -/
def baseTier (iconMap : List (String × String)) (image : String) : Option String :=
  mapTier iconMap (getImageBase (parseImageReference image))

/-- The icon-map tier of `resolveIcon` (exact match first, then the
normalized base), guarded by `Object.keys(iconMap).length > 0`. -/
def iconMapHit (iconMap : List (String × String)) (image : String) : Option String :=
  if iconMap = [] then none
  else firstTruthy (exactTier iconMap image) (fun _ => baseTier iconMap image)

/-- Model of `meta?.icon`. -/
def iconOfMeta (m : Option HubMetadata) : Option String :=
  match m with
  | some meta => meta.icon
  | none => none

/-- Model of `resolveIcon` (metadata.ts lines 655–724): label/hint URL, then the
icon map, then the five network providers in order. -/
def resolveIcon (p : IconProviders) (iconMap : List (String × String))
    (ctx : MetadataContext) : Option String :=
  firstTruthy (jsSanitizeUrl (labelIconOf ctx)) (fun _ =>
    firstTruthy (iconMapHit iconMap ctx.image) (fun _ =>
      firstTruthy (p.selfhst (parseImageReference ctx.image)) (fun _ =>
        firstTruthy (p.hypoluxa (parseImageReference ctx.image)) (fun _ =>
          firstTruthy (iconOfMeta (p.repoMeta (parseImageReference ctx.image))) (fun _ =>
            firstTruthy (iconOfMeta (p.productMeta (parseImageReference ctx.image))) (fun _ =>
              firstTruthy (iconOfMeta (p.hubMeta (parseImageReference ctx.image)))
                (fun _ => none)))))))

/-- An icon map with one entry keyed by the repository base. -/
def c8map : List (String × String) :=
  [("plexinc/pms-docker", "https://example.com/icons/pms.png")]

/-- A context with no icon hint and no icon labels. -/
def c8ctx : MetadataContext :=
  { image := "plexinc/pms-docker:latest", labels := [],
    descriptionHint := none, iconHint := none }

/-- Providers that all fail. -/
def c8prov1 : IconProviders :=
  { selfhst := fun _ => none, hypoluxa := fun _ => none,
    repoMeta := fun _ => none, productMeta := fun _ => none,
    hubMeta := fun _ => none }

/-- Providers that all answer with (different) icons. -/
def c8prov2 : IconProviders :=
  { selfhst := fun _ => some "https://cdn.example/selfhst.png",
    hypoluxa := fun _ => some "https://cdn.example/hypo.png",
    repoMeta := fun _ => some { icon := some "https://hub.example/repo.png", description := none },
    productMeta := fun _ => some { icon := some "https://hub.example/prod.png", description := none },
    hubMeta := fun _ => some { icon := some "https://hub.example/hub.png", description := none } }

/-! ## Algebraic properties of the comparator -/

theorem ratSub_eq (a b : ℚ) : ratSub a b = a - b := by
  rw [ratSub, Rat.mkRat_eq_div]
  have ha : (a.den : ℚ) ≠ 0 := by exact_mod_cast a.den_nz
  have hb : (b.den : ℚ) ≠ 0 := by exact_mod_cast b.den_nz
  conv_rhs => rw [← Rat.num_div_den a, ← Rat.num_div_den b]
  rw [div_sub_div _ _ ha hb]
  push_cast
  ring_nf

theorem jsSub_anti (a b : JsNum) : jsSub b a = (jsSub a b).neg := by
  cases a with
  | fin qa =>
    cases b with
    | fin qb => simp only [jsSub, CmpRes.neg, ratSub_eq]; rw [neg_sub]
    | inf pb => cases pb <;> simp [jsSub, CmpRes.neg]
  | inf pa =>
    cases b with
    | fin qb => cases pa <;> simp [jsSub, CmpRes.neg]
    | inf pb => cases pa <;> cases pb <;> simp [jsSub, CmpRes.neg]

theorem segEq_symm (x y : Segment) : segEq x y = segEq y x := by
  cases x <;> cases y <;> simp [segEq, eq_comm]

theorem charListLt_asymm :
    ∀ a b : List Char, charListLt a b = true → charListLt b a = false := by
  intro a
  induction a with
  | nil => intro b _; cases b <;> simp [charListLt]
  | cons x xs ih =>
    intro b hab
    cases b with
    | nil => simp [charListLt] at hab
    | cons y ys =>
      simp only [charListLt] at hab ⊢
      by_cases hxy : x < y
      · have hyx : ¬ y < x := lt_asymm hxy
        simp [hxy, hyx]
      · by_cases hyx : y < x
        · simp [hxy, hyx] at hab
        · simp only [hxy, if_false, hyx, if_false] at hab ⊢
          simp [hxy, hyx, ih ys hab]

theorem cmpSegs_anti :
    ∀ xs ys : List Segment, cmpSegs ys xs = (cmpSegs xs ys).neg := by
  intro xs
  induction xs with
  | nil => intro ys; cases ys <;> simp [cmpSegs, CmpRes.neg]
  | cons x xs ih =>
    intro ys
    cases ys with
    | nil => simp [cmpSegs, CmpRes.neg]
    | cons y ys =>
      simp only [cmpSegs]
      rw [segEq_symm y x]
      by_cases he : segEq x y = true
      · simp [he, ih ys]
      · have he' : segEq x y = false := by
          cases h2 : segEq x y
          · rfl
          · exact absurd h2 he
        simp only [he', Bool.false_eq_true, if_false]
        cases x with
        | num a =>
          cases y with
          | num b => exact jsSub_anti a b
          | str sy =>
            by_cases h1 : jsStrLt (segToString (.str sy)) (segToString (.num a)) = true
            · have h2 := charListLt_asymm _ _ h1
              simp only [jsStrLt] at h1 h2
              simp [jsStrLt, h1, h2, CmpRes.neg]
            · by_cases h2 : jsStrLt (segToString (.num a)) (segToString (.str sy)) = true
              · have h3 := charListLt_asymm _ _ h2
                simp only [jsStrLt] at h2 h3
                simp [jsStrLt, h2, h3, CmpRes.neg]
              · simp only [jsStrLt] at h1 h2
                simp only [Bool.not_eq_true] at h1 h2
                simp [jsStrLt, h1, h2, ih ys]
        | str sx =>
          by_cases h1 : jsStrLt (segToString y) (segToString (.str sx)) = true
          · have h2 := charListLt_asymm _ _ h1
            simp only [jsStrLt] at h1 h2
            cases y <;> simp [jsStrLt, h1, h2, CmpRes.neg]
          · by_cases h2 : jsStrLt (segToString (.str sx)) (segToString y) = true
            · have h3 := charListLt_asymm _ _ h2
              simp only [jsStrLt] at h2 h3
              cases y <;> simp [jsStrLt, h2, h3, CmpRes.neg]
            · simp only [jsStrLt] at h1 h2
              simp only [Bool.not_eq_true] at h1 h2
              cases y <;> simp [jsStrLt, h1, h2, ih ys]

theorem cmpResNegNeg (r : CmpRes) : r.neg.neg = r := by
  cases r <;> simp [CmpRes.neg]

theorem cmpSegs_self (xs : List Segment) : cmpSegs xs xs = .fin 0 := by
  induction xs with
  | nil => rfl
  | cons x xs ih =>
    have hx : segEq x x = true := by cases x <;> simp [segEq]
    simp [cmpSegs, hx, ih]

theorem compareCore_anti (l r : String) : compareCore l r = (compareCore r l).neg := by
  unfold compareCore
  by_cases hlr : l = r
  · subst hlr; simp [CmpRes.neg]
  · have hrl : ¬ r = l := fun h => hlr h.symm
    simp only [hlr, hrl, if_false]
    cases hL : isLatest (some l) <;> cases hR : isLatest (some r)
    · simp only [hL, hR, Bool.false_eq_true, not_false_iff, and_false, false_and, if_false]
      cases hDl : isDigest l <;> cases hDr : isDigest r
      · simp [cmpSegs_anti (segmentify l) (segmentify r), cmpResNegNeg]
      · simp [CmpRes.neg]
      · simp [CmpRes.neg]
      · by_cases hs1 : jsStrLt l r = true
        · have hs2 := charListLt_asymm _ _ hs1
          simp only [jsStrLt] at hs1 hs2
          simp [jsStrLt, hs1, hs2, CmpRes.neg]
        · by_cases hs2 : jsStrLt r l = true
          · have hs3 := charListLt_asymm _ _ hs2
            simp only [jsStrLt] at hs2 hs3
            simp [jsStrLt, hs2, hs3, CmpRes.neg]
          · simp only [jsStrLt, Bool.not_eq_true] at hs1 hs2
            simp [jsStrLt, hs1, hs2, CmpRes.neg]
    · simp [hL, hR, CmpRes.neg]
    · simp [hL, hR, CmpRes.neg]
    · simp only [hL, hR, not_true, and_false, false_and, if_false, Bool.true_eq_false]
      cases hDl : isDigest l <;> cases hDr : isDigest r
      · simp [cmpSegs_anti (segmentify l) (segmentify r), cmpResNegNeg]
      · simp [CmpRes.neg]
      · simp [CmpRes.neg]
      · by_cases hs1 : jsStrLt l r = true
        · have hs2 := charListLt_asymm _ _ hs1
          simp only [jsStrLt] at hs1 hs2
          simp [jsStrLt, hs1, hs2, CmpRes.neg]
        · by_cases hs2 : jsStrLt r l = true
          · have hs3 := charListLt_asymm _ _ hs2
            simp only [jsStrLt] at hs2 hs3
            simp [jsStrLt, hs2, hs3, CmpRes.neg]
          · simp only [jsStrLt, Bool.not_eq_true] at hs1 hs2
            simp [jsStrLt, hs1, hs2, CmpRes.neg]

theorem compareVersions_anti (a b : Option String) :
    compareVersions a b = (compareVersions b a).neg := by
  unfold compareVersions
  cases hA : jsFalsy (vNormalize a) <;> cases hB : jsFalsy (vNormalize b)
  · simp only [hA, hB, Bool.false_eq_true, and_self, if_false]
    exact compareCore_anti _ _
  · simp [hA, hB, CmpRes.neg]
  · simp [hA, hB, CmpRes.neg]
  · simp [hA, hB, CmpRes.neg]

theorem compareVersions_self (a : Option String) : compareVersions a a = .fin 0 := by
  unfold compareVersions
  cases h : jsFalsy (vNormalize a) <;> simp [h, compareCore]

/-- C1: the version comparator is antisymmetric (`compare(a,b) == -compare(b,a)`
for all nullable version strings) and reflexive (`compare(a,a) == 0`). -/
theorem c1_comparator_antisymmetric_reflexive :
    ∀ a b : Option String,
      compareVersions a b = (compareVersions b a).neg ∧
      compareVersions a a = .fin 0 :=
  fun a b => ⟨compareVersions_anti a b, compareVersions_self a⟩

/-- C9: the concrete orderings from the specification, and the fact that a
null/empty input sorts strictly below any version that is non-empty after
normalization. -/
theorem c9_comparator_concrete_orderings :
    (compareVersions (some "1.2.3") (some "1.2.10")).isLT = true ∧
    (compareVersions (some "v2.0") (some "1.9.9")).isGT = true ∧
    (compareVersions (some "latest") (some "1.0.0")).isGT = true ∧
    (compareVersions none (some "1.0.0")).isLT = true ∧
    (∀ a : String, jsTrim a ≠ "" →
      (compareVersions none (some a)).isLT = true ∧
      (compareVersions (some "") (some a)).isLT = true ∧
      (compareVersions (some a) none).isGT = true ∧
      (compareVersions (some a) (some "")).isGT = true) := by
  refine ⟨by decide, by decide, by decide, by decide, ?_⟩
  intro a ha
  have h0 : a ≠ "" := by
    intro h
    subst h
    exact ha (by decide)
  have hfa : jsFalsy (vNormalize (some a)) = false := by
    simp only [vNormalize, h0, if_false, jsFalsy]
    simp [ha]
  refine ⟨?_, ?_, ?_, ?_⟩ <;>
    · unfold compareVersions
      simp [jsFalsy, vNormalize, h0, ha, CmpRes.isLT, CmpRes.isGT]

theorem c9_comparator_concrete_orderings_witness :
    (compareVersions none (some "1.0.0")).isLT = true ∧
    (compareVersions (some "1.0.0") none).isGT = true := by
  have h := c9_comparator_concrete_orderings.2.2.2.2 "1.0.0" (by decide)
  exact ⟨h.1, h.2.2.1⟩

theorem stringDataInj {a b : String} (h : a.data = b.data) : a = b := by
  cases a
  cases b
  congr 1

theorem lenDropWhileLe (p : Char → Bool) (l : List Char) :
    (l.dropWhile p).length ≤ l.length :=
  (List.dropWhile_sublist p).length_le

theorem dropWhileLenEq {p : Char → Bool} :
    ∀ l : List Char, (l.dropWhile p).length = l.length → l.dropWhile p = l := by
  intro l
  induction l with
  | nil => intro _; rfl
  | cons x xs ih =>
    intro h
    rw [List.dropWhile_cons] at h ⊢
    by_cases hx : p x = true
    · exfalso
      simp only [hx, if_true] at h
      have := lenDropWhileLe p xs
      simp at h
      omega
    · simp only [hx] at h ⊢
      simp

theorem dropWhileAppendSingle {p : Char → Bool} (c : Char) (hc : p c = false) :
    ∀ xs : List Char, (xs ++ [c]).dropWhile p = xs.dropWhile p ++ [c] := by
  intro xs
  induction xs with
  | nil => simp [List.dropWhile, hc]
  | cons x xs ih =>
    rw [List.cons_append, List.dropWhile_cons, List.dropWhile_cons]
    by_cases hx : p x = true
    · simp [hx, ih]
    · simp [hx]

theorem jsTrimListDropBoth {l : List Char} (h : jsTrimList l = l) :
    l.dropWhile jsIsWhitespace = l ∧
    l.reverse.dropWhile jsIsWhitespace = l.reverse := by
  have hlen1 : (l.dropWhile jsIsWhitespace).length ≤ l.length :=
    lenDropWhileLe _ _
  have hlen2 : (jsTrimList l).length ≤ (l.dropWhile jsIsWhitespace).length := by
    unfold jsTrimList
    calc (((l.dropWhile jsIsWhitespace).reverse.dropWhile jsIsWhitespace).reverse).length
        = ((l.dropWhile jsIsWhitespace).reverse.dropWhile jsIsWhitespace).length := by
          rw [List.length_reverse]
      _ ≤ (l.dropWhile jsIsWhitespace).reverse.length := lenDropWhileLe _ _
      _ = (l.dropWhile jsIsWhitespace).length := by rw [List.length_reverse]
  have hfix : (l.dropWhile jsIsWhitespace).length = l.length := by
    have := congrArg List.length h
    omega
  have hD : l.dropWhile jsIsWhitespace = l := dropWhileLenEq l hfix
  refine ⟨hD, ?_⟩
  have h2 : (l.reverse.dropWhile jsIsWhitespace).reverse = l := by
    unfold jsTrimList at h
    rw [hD] at h
    exact h
  have := congrArg List.reverse h2
  simpa using this

theorem jsTrimListConsOf {c : Char} {l : List Char} (hc : jsIsWhitespace c = false)
    (h : jsTrimList l = l) : jsTrimList (c :: l) = c :: l := by
  obtain ⟨_, hRev⟩ := jsTrimListDropBoth h
  unfold jsTrimList
  rw [List.dropWhile_cons]
  simp only [hc, Bool.false_eq_true, if_false]
  rw [List.reverse_cons, dropWhileAppendSingle c hc, hRev]
  simp

/-- C10 fails as stated: the string `s = "v1"` satisfies every condition of
the claim (neither it nor its `v`-prefixed form is "latest" or
digest-shaped), yet the comparator does not identify `"vv1"` with `"v1"`:
only one leading `v` is stripped, so the left side segments to the string
segment `"v1"` while the right side segments to the number `1`, and the
comparison returns `1`, not `0`. -/
theorem c10_counterexample :
    isLatest (some "v1") = false ∧ isLatest (some ("v" ++ "v1")) = false ∧
    isDigest "v1" = false ∧ isDigest ("v" ++ "v1") = false ∧
    compareVersions (some ("v" ++ "v1")) (some "v1") = .fin 1 ∧
    compareVersions (some ("v" ++ "v1")) (some "v1") ≠ .fin 0 := by
  decide

/-- C10 (amended): for every trimmed, non-empty string `s` that does not
itself begin with `v`/`V`, such that neither `s` nor `"v" ++ s` is
"latest" (case-insensitively) or digest-shaped, the comparator identifies
the `v`-prefixed and unprefixed forms: `compare("v"+s, s) == 0`.  Hence
two distinct strings in an app's deduplicated version set can be
comparator-equal, and which becomes `latestVersion` is decided by sort
order, not by the comparator. -/
theorem c10_v_prefix_identified_amended :
    ∀ s : String, jsTrim s = s → s ≠ "" →
      (∀ c, s.data.head? = some c → ¬ (c = 'v' ∨ c = 'V')) →
      isLatest (some s) = false → isDigest s = false →
      isLatest (some ("v" ++ s)) = false → isDigest ("v" ++ s) = false →
      compareVersions (some ("v" ++ s)) (some s) = .fin 0 := by
  intro s hTrim hNe hHead hLat hDig hLatV hDigV
  have hdata : ("v" ++ s).data = 'v' :: s.data := by
    cases s
    rfl
  have hTrimL : jsTrimList s.data = s.data := by
    have := congrArg String.data hTrim
    simpa [jsTrim] using this
  have hTrimVL : jsTrimList ('v' :: s.data) = 'v' :: s.data :=
    jsTrimListConsOf (by decide) hTrimL
  have hTrimV : jsTrim ("v" ++ s) = "v" ++ s := by
    apply stringDataInj
    simp [jsTrim, hdata, hTrimVL]
  have hVne : ("v" ++ s) ≠ "" := by
    intro h
    have := congrArg String.data h
    rw [hdata] at this
    simp at this
  have hNeq : ("v" ++ s) ≠ s := by
    intro h
    have h2 : ('v' :: s.data).length = s.data.length := by
      rw [← hdata, h]
    simp at h2
  have hsTrim : jsTrim s = s := hTrim
  unfold compareVersions
  simp only [vNormalize, hVne, hNe, if_false, hTrimV, hsTrim, jsFalsy]
  have hVne' : ("v" ++ s) = "" ↔ False := by simp [hVne]
  have hNe' : s = "" ↔ False := by simp [hNe]
  simp only [hVne', hNe', decide_False, Bool.false_eq_true, and_self, if_false,
    Option.getD_some, iff_false]
  unfold compareCore
  simp only [hNeq, if_false, hLat, hLatV, hDig, hDigV, Bool.false_eq_true, false_and,
    and_false, not_false_iff, if_false]
  have hsegV : segmentify ("v" ++ s) = segmentify s := by
    unfold segmentify
    rw [hdata]
    cases hd : s.data with
    | nil =>
      exfalso
      exact hNe (stringDataInj (by simpa using hd))
    | cons c cs =>
      have hc := hHead c (by rw [hd]; rfl)
      have hcv : ¬ (c = 'v' ∨ c = 'V') := hc
      simp only [hd]
      simp [hcv]
  rw [hsegV]
  exact cmpSegs_self _

theorem c10_v_prefix_identified_amended_witness :
    compareVersions (some ("v" ++ "1.2.3")) (some "1.2.3") = .fin 0 :=
  c10_v_prefix_identified_amended "1.2.3" (by decide) (by decide)
    (by decide) (by decide) (by decide) (by decide) (by decide)

/-! ## Generic facts about the JS sort model and association lists -/

theorem jsInsert_perm {α : Type} (c : α → α → CmpRes) (x : α) :
    ∀ l : List α, (jsInsert c x l).Perm (x :: l) := by
  intro l
  induction l with
  | nil => simp [jsInsert]
  | cons y ys ih =>
    unfold jsInsert
    by_cases h : (c x y).isLE = true
    · simp [h]
    · simp only [h, if_false]
      exact (List.Perm.cons y ih).trans (List.Perm.swap x y ys)

theorem jsSort_perm {α : Type} (c : α → α → CmpRes) :
    ∀ l : List α, (jsSort c l).Perm l := by
  intro l
  induction l with
  | nil => simp [jsSort]
  | cons x xs ih =>
    unfold jsSort
    exact ((jsInsert_perm c x (jsSort c xs)).trans (List.Perm.cons x ih))

theorem jsSort_mem {α : Type} {c : α → α → CmpRes} {l : List α} {a : α} :
    a ∈ jsSort c l ↔ a ∈ l :=
  (jsSort_perm c l).mem_iff

theorem jsInsert_chain {α : Type} (c : α → α → CmpRes) (x : α) :
    ∀ l : List α,
      (∀ y ∈ l, (c x y).isLE = true ∨ (c y x).isLE = true) →
      List.Chain' (fun a b => (c a b).isLE = true) l →
      List.Chain' (fun a b => (c a b).isLE = true) (jsInsert c x l) := by
  intro l
  induction l with
  | nil => intro _ _; simp [jsInsert]
  | cons y ys ih =>
    intro htot hch
    unfold jsInsert
    by_cases h : (c x y).isLE = true
    · simp only [h, if_true]
      exact List.chain'_cons.mpr ⟨h, hch⟩
    · simp only [h, if_false]
      have hyx : (c y x).isLE = true := by
        rcases htot y (by simp) with h1 | h1
        · exact absurd h1 h
        · exact h1
      have hch2 : List.Chain' (fun a b => (c a b).isLE = true) ys := hch.tail
      have hrec := ih (fun z hz => htot z (by simp [hz])) hch2
      cases hys : ys with
      | nil =>
        subst hys
        exact List.chain'_cons.mpr ⟨hyx, List.chain'_singleton x⟩
      | cons z zs =>
        subst hys
        unfold jsInsert
        by_cases h2 : (c x z).isLE = true
        · simp only [h2, if_true]
          exact List.chain'_cons.mpr ⟨hyx, by simpa [jsInsert, h2] using hrec⟩
        · simp only [h2, if_false]
          have hyz : (c y z).isLE = true := (List.chain'_cons.mp hch).1
          exact List.chain'_cons.mpr ⟨hyz, by simpa [jsInsert, h2] using hrec⟩

theorem jsSort_chain {α : Type} (c : α → α → CmpRes)
    (htot : ∀ x y : α, (c x y).isLE = true ∨ (c y x).isLE = true) :
    ∀ l : List α, List.Chain' (fun a b => (c a b).isLE = true) (jsSort c l) := by
  intro l
  induction l with
  | nil => simp [jsSort]
  | cons x xs ih =>
    unfold jsSort
    exact jsInsert_chain c x (jsSort c xs) (fun y _ => htot x y) ih

/-- In a chain-sorted list, the last element dominates every member,
provided the relation is transitive on the list's members. -/
theorem chain_getLast_max {α : Type} (c : α → α → CmpRes) :
    ∀ (l : List α),
      List.Chain' (fun a b => (c a b).isLE = true) l →
      (∀ x ∈ l, ∀ y ∈ l, ∀ z ∈ l,
        (c x y).isLE = true → (c y z).isLE = true → (c x z).isLE = true) →
      ∀ x ∈ l, ∀ L, l.getLast? = some L → (c x L).isLE = true ∨ x = L := by
  intro l
  induction l with
  | nil => intro _ _ x hx; simp at hx
  | cons a as ih =>
    intro hch htrans x hx L hL
    cases has : as with
    | nil =>
      subst has
      simp at hx hL
      subst hx
      right
      simpa using hL
    | cons b bs =>
      subst has
      have hab : (c a b).isLE = true := (List.chain'_cons.mp hch).1
      have hch2 : List.Chain' (fun u v => (c u v).isLE = true) (b :: bs) :=
        (List.chain'_cons.mp hch).2
      have hL2 := hL
      rw [List.getLast?_cons_cons] at hL2
      have htrans2 : ∀ x ∈ b :: bs, ∀ y ∈ b :: bs, ∀ z ∈ b :: bs,
          (c x y).isLE = true → (c y z).isLE = true → (c x z).isLE = true := by
        intro u hu v hv w hw
        exact htrans u (List.mem_cons_of_mem _ hu) v (List.mem_cons_of_mem _ hv)
          w (List.mem_cons_of_mem _ hw)
      rcases List.mem_cons.mp hx with hxa | hxas
      · subst hxa
        have hLmem : L ∈ b :: bs := by
          obtain ⟨h9, hEq⟩ := List.mem_getLast?_eq_getLast (Option.mem_def.mpr hL2)
          rw [hEq]
          exact List.getLast_mem h9
        rcases ih hch2 htrans2 b (by simp) L hL2 with hbl | hbl
        · left
          exact htrans x (by simp) b (by simp) L (List.mem_cons_of_mem _ hLmem) hab hbl
        · subst hbl
          left
          exact hab
      · exact ih hch2 htrans2 x hxas L hL2

theorem lookupAssoc_nil {α : Type} (k : String) : lookupAssoc ([] : List (String × α)) k = none := rfl

theorem lookupAssoc_cons {α : Type} (kv : String × α) (m : List (String × α)) (k : String) :
    lookupAssoc (kv :: m) k = if kv.1 = k then some kv.2 else lookupAssoc m k := by
  by_cases h : kv.1 = k
  · simp [lookupAssoc, List.find?, h]
  · simp [lookupAssoc, List.find?, h]

theorem lookupAssoc_append {α : Type} (m1 m2 : List (String × α)) (k : String) :
    lookupAssoc (m1 ++ m2) k =
      match lookupAssoc m1 k with
      | some v => some v
      | none => lookupAssoc m2 k := by
  induction m1 with
  | nil => simp [lookupAssoc_nil]
  | cons kv m ih =>
    rw [List.cons_append, lookupAssoc_cons, lookupAssoc_cons]
    by_cases h : kv.1 = k
    · simp [h]
    · simp [h, ih]

theorem lookupAssoc_updateAssoc_self {α : Type} (m : List (String × α)) (k : String)
    (f : α → α) : lookupAssoc (updateAssoc m k f) k = (lookupAssoc m k).map f := by
  induction m with
  | nil => rfl
  | cons kv m ih =>
    unfold updateAssoc
    rw [List.map_cons]
    by_cases h : kv.1 = k
    · simp [lookupAssoc_cons, h]
    · rw [lookupAssoc_cons]
      simp only [h, if_false, if_neg h]
      rw [lookupAssoc_cons]
      simp only [h, if_false, if_neg h]
      exact ih

theorem lookupAssoc_updateAssoc_other {α : Type} (m : List (String × α)) (k k2 : String)
    (f : α → α) (hne : k2 ≠ k) :
    lookupAssoc (updateAssoc m k f) k2 = lookupAssoc m k2 := by
  induction m with
  | nil => rfl
  | cons kv m ih =>
    unfold updateAssoc
    rw [List.map_cons]
    by_cases h : kv.1 = k
    · rw [show (if kv.1 = k then (kv.1, f kv.2) else kv) = (kv.1, f kv.2) from if_pos h]
      rw [lookupAssoc_cons, lookupAssoc_cons]
      have h2 : ¬ (kv.1, f kv.2).1 = k2 := by
        intro hh
        apply hne
        rw [← hh]
        exact h
      have h3 : ¬ kv.1 = k2 := h2
      rw [if_neg h2, if_neg h3]
      exact ih
    · rw [show (if kv.1 = k then (kv.1, f kv.2) else kv) = kv from if_neg h]
      rw [lookupAssoc_cons, lookupAssoc_cons]
      by_cases h3 : kv.1 = k2
      · rw [if_pos h3, if_pos h3]
      · rw [if_neg h3, if_neg h3]
        exact ih

theorem lookupAssoc_mem {α : Type} {m : List (String × α)} {k : String} {v : α}
    (h : lookupAssoc m k = some v) : (k, v) ∈ m := by
  induction m with
  | nil => simp [lookupAssoc_nil] at h
  | cons kv m ih =>
    rw [lookupAssoc_cons] at h
    by_cases hk : kv.1 = k
    · rw [if_pos hk, Option.some.injEq] at h
      obtain ⟨k1, v1⟩ := kv
      dsimp only at hk h
      subst hk
      subst h
      exact List.mem_cons_self _ _
    · rw [if_neg hk] at h
      exact List.mem_cons_of_mem _ (ih h)

theorem lookupAssoc_none {α : Type} {m : List (String × α)} {k : String}
    (h : lookupAssoc m k = none) : ∀ kv ∈ m, kv.1 ≠ k := by
  induction m with
  | nil => simp
  | cons kv m ih =>
    rw [lookupAssoc_cons] at h
    by_cases hk : kv.1 = k
    · simp [hk] at h
    · intro kv2 hkv2
      rcases List.mem_cons.mp hkv2 with h2 | h2
      · subst h2; exact hk
      · simp only [hk, if_false, if_neg hk] at h
        exact ih h kv2 h2

theorem mem_lookupAssoc_of_nodup {α : Type} {m : List (String × α)} {k : String} {v : α}
    (hnd : (m.map Prod.fst).Nodup) (hmem : (k, v) ∈ m) : lookupAssoc m k = some v := by
  induction m with
  | nil => simp at hmem
  | cons kv m ih =>
    rw [lookupAssoc_cons]
    rcases List.mem_cons.mp hmem with h2 | h2
    · subst h2
      simp
    · have hk : kv.1 ≠ k := by
        intro hk
        have : k ∈ m.map Prod.fst := by
          refine List.mem_map.mpr ⟨(k, v), h2, rfl⟩
        rw [List.map_cons, List.nodup_cons, hk] at hnd
        exact hnd.1 this
      simp only [hk, if_false, if_neg hk]
      exact ih (by rw [List.map_cons, List.nodup_cons] at hnd; exact hnd.2) h2

/-! ## Facts about the grouping fold -/

theorem upsert_lookup_other (m : List (String × WorkingApp)) (k k2 : String)
    (p : UpsertPayload) (hne : k2 ≠ k) :
    lookupAssoc (upsertWorkingApp m k p) k2 = lookupAssoc m k2 := by
  unfold upsertWorkingApp
  cases h : lookupAssoc m k with
  | none =>
    rw [lookupAssoc_append]
    cases h2 : lookupAssoc m k2 with
    | none =>
      have : ¬ (k, freshWorkingApp k p).1 = k2 := fun hh => hne (hh.symm)
      simp [lookupAssoc_cons, this, lookupAssoc_nil]
    | some w => simp
  | some wa => exact lookupAssoc_updateAssoc_other m k k2 _ hne

theorem upsert_lookup_self (m : List (String × WorkingApp)) (k : String)
    (p : UpsertPayload) :
    lookupAssoc (upsertWorkingApp m k p) k =
      some (match lookupAssoc m k with
            | none => freshWorkingApp k p
            | some wa => mergeWorkingApp p wa) := by
  unfold upsertWorkingApp
  cases h : lookupAssoc m k with
  | none =>
    rw [lookupAssoc_append, h]
    simp [lookupAssoc_cons, lookupAssoc_nil]
  | some wa =>
    rw [lookupAssoc_updateAssoc_self, h]
    rfl

theorem instMem_upsert {m : List (String × WorkingApp)} {k : String}
    {p : UpsertPayload} {i : ServerInstance} :
    instMem (upsertWorkingApp m k p) i ↔ instMem m i ∨ i = p.inst := by
  unfold upsertWorkingApp
  cases h : lookupAssoc m k with
  | none =>
    constructor
    · rintro ⟨kv, hkv, hi⟩
      rcases List.mem_append.mp hkv with hm | hnew
      · exact Or.inl ⟨kv, hm, hi⟩
      · simp only [List.mem_singleton] at hnew
        subst hnew
        simp only [freshWorkingApp, List.mem_singleton] at hi
        exact Or.inr hi
    · rintro (⟨kv, hkv, hi⟩ | hi)
      · exact ⟨kv, List.mem_append_left _ hkv, hi⟩
      · refine ⟨(k, freshWorkingApp k p), List.mem_append_right _ (by simp), ?_⟩
        simp [freshWorkingApp, hi]
  | some wa =>
    constructor
    · rintro ⟨kv, hkv, hi⟩
      unfold updateAssoc at hkv
      rcases List.mem_map.mp hkv with ⟨kv0, hkv0, hEq⟩
      by_cases hk : kv0.1 = k
      · rw [if_pos hk] at hEq
        subst hEq
        simp only [mergeWorkingApp, List.mem_append, List.mem_singleton] at hi
        rcases hi with hi | hi
        · exact Or.inl ⟨kv0, hkv0, hi⟩
        · exact Or.inr hi
      · rw [if_neg hk] at hEq
        subst hEq
        exact Or.inl ⟨kv0, hkv0, hi⟩
    · rintro (⟨kv, hkv, hi⟩ | hi)
      · unfold updateAssoc
        by_cases hk : kv.1 = k
        · refine ⟨(kv.1, mergeWorkingApp p kv.2), ?_, ?_⟩
          · exact List.mem_map.mpr ⟨kv, hkv, by rw [if_pos hk]⟩
          · simp [mergeWorkingApp, hi]
        · refine ⟨kv, ?_, hi⟩
          exact List.mem_map.mpr ⟨kv, hkv, by rw [if_neg hk]⟩
      · have hmem := lookupAssoc_mem h
        unfold updateAssoc
        refine ⟨(k, mergeWorkingApp p wa), ?_, ?_⟩
        · refine List.mem_map.mpr ⟨(k, wa), hmem, ?_⟩
          simp
        · simp [mergeWorkingApp, hi]

theorem innerFold_eq (src : SourceConfig) (cs : List ContainerInfo) :
    ∀ m, cs.foldl (fun m2 c => processContainer m2 src c) m =
      (cs.map (fun c => (src, c))).foldl procStep m := by
  induction cs with
  | nil => intro m; rfl
  | cons c cs ih =>
    intro m
    simp only [List.foldl_cons, List.map_cons]
    exact ih _

theorem doubleFold_eq (matrix : List (SourceConfig × List ContainerInfo)) :
    ∀ m0, matrix.foldl
        (fun m sc => sc.2.foldl (fun m2 c => processContainer m2 sc.1 c) m) m0 =
      (flatPairs matrix).foldl procStep m0 := by
  induction matrix with
  | nil => intro m0; rfl
  | cons sc rest ih =>
    intro m0
    simp only [List.foldl_cons, flatPairs, List.flatMap_cons, List.foldl_append]
    rw [innerFold_eq]
    exact ih _

theorem foldl_preserves {α β : Type} (f : α → β → α) (P : α → Prop)
    (h : ∀ a b, P a → P (f a b)) : ∀ (l : List β) (a : α), P a → P (l.foldl f a) := by
  intro l
  induction l with
  | nil => intro a ha; exact ha
  | cons b bs ih => intro a ha; exact ih _ (h a b ha)

theorem step_keeps_mem_at (k : String) (i : ServerInstance)
    (m : List (String × WorkingApp)) (p : SourceConfig × ContainerInfo)
    (h : ∃ wa, lookupAssoc m k = some wa ∧ i ∈ wa.app.containers) :
    ∃ wa, lookupAssoc (procStep m p) k = some wa ∧ i ∈ wa.app.containers := by
  obtain ⟨wa, hl, hi⟩ := h
  unfold procStep processContainer
  by_cases hk : k = appIdOfContainer p.2
  · subst hk
    rw [upsert_lookup_self, hl]
    exact ⟨_, rfl, by simp [mergeWorkingApp, hi]⟩
  · rw [upsert_lookup_other _ _ _ _ hk]
    exact ⟨wa, hl, hi⟩

theorem fold_keeps_mem_at (k : String) (i : ServerInstance) :
    ∀ (l : List (SourceConfig × ContainerInfo)) (m : List (String × WorkingApp)),
      (∃ wa, lookupAssoc m k = some wa ∧ i ∈ wa.app.containers) →
      ∃ wa, lookupAssoc (l.foldl procStep m) k = some wa ∧ i ∈ wa.app.containers := by
  intro l
  induction l with
  | nil => intro m h; exact h
  | cons p ps ih =>
    intro m h
    exact ih _ (step_keeps_mem_at k i m p h)

theorem step_self_mem (m : List (String × WorkingApp)) (p : SourceConfig × ContainerInfo) :
    ∃ wa, lookupAssoc (procStep m p) (appIdOfContainer p.2) = some wa ∧
      toServerInstance p.1 p.2 ∈ wa.app.containers := by
  unfold procStep processContainer
  rw [upsert_lookup_self]
  cases h : lookupAssoc m (appIdOfContainer p.2) with
  | none => exact ⟨_, rfl, by simp [freshWorkingApp, payloadOf]⟩
  | some wa => exact ⟨_, rfl, by simp [mergeWorkingApp, payloadOf]⟩

theorem fold_mem_of_processed :
    ∀ (l : List (SourceConfig × ContainerInfo)) (m : List (String × WorkingApp))
      (p : SourceConfig × ContainerInfo), p ∈ l →
      ∃ wa, lookupAssoc (l.foldl procStep m) (appIdOfContainer p.2) = some wa ∧
        toServerInstance p.1 p.2 ∈ wa.app.containers := by
  intro l m p hp
  obtain ⟨s, t, rfl⟩ := List.append_of_mem hp
  rw [List.foldl_append, List.foldl_cons]
  exact fold_keeps_mem_at _ _ t _ (step_self_mem _ p)

theorem upsert_preserves_nonempty {m : List (String × WorkingApp)} {k : String}
    {p : UpsertPayload}
    (h : ∀ kv ∈ m, kv.2.app.containers ≠ []) :
    ∀ kv ∈ upsertWorkingApp m k p, kv.2.app.containers ≠ [] := by
  intro kv hkv
  unfold upsertWorkingApp at hkv
  cases hl : lookupAssoc m k with
  | none =>
    rw [hl] at hkv
    rcases List.mem_append.mp hkv with hm | hnew
    · exact h kv hm
    · simp only [List.mem_singleton] at hnew
      subst hnew
      simp [freshWorkingApp]
  | some wa =>
    rw [hl] at hkv
    unfold updateAssoc at hkv
    rcases List.mem_map.mp hkv with ⟨kv0, hkv0, hEq⟩
    by_cases hk : kv0.1 = k
    · rw [if_pos hk] at hEq
      subst hEq
      simp [mergeWorkingApp]
    · rw [if_neg hk] at hEq
      subst hEq
      exact h kv0 hkv0

theorem upsert_preserves_id {m : List (String × WorkingApp)} {k : String}
    {p : UpsertPayload}
    (h : ∀ kv ∈ m, kv.2.app.id = kv.1) :
    ∀ kv ∈ upsertWorkingApp m k p, kv.2.app.id = kv.1 := by
  intro kv hkv
  unfold upsertWorkingApp at hkv
  cases hl : lookupAssoc m k with
  | none =>
    rw [hl] at hkv
    rcases List.mem_append.mp hkv with hm | hnew
    · exact h kv hm
    · simp only [List.mem_singleton] at hnew
      subst hnew
      simp [freshWorkingApp]
  | some wa =>
    rw [hl] at hkv
    unfold updateAssoc at hkv
    rcases List.mem_map.mp hkv with ⟨kv0, hkv0, hEq⟩
    by_cases hk : kv0.1 = k
    · rw [if_pos hk] at hEq
      subst hEq
      simp only [mergeWorkingApp]
      exact h kv0 hkv0
    · rw [if_neg hk] at hEq
      subst hEq
      exact h kv0 hkv0

theorem fold_instMem_pred (Q : ServerInstance → Prop) :
    ∀ (l : List (SourceConfig × ContainerInfo)) (m : List (String × WorkingApp)),
      (∀ i, instMem m i → Q i) →
      (∀ p ∈ l, Q (toServerInstance p.1 p.2)) →
      ∀ i, instMem (l.foldl procStep m) i → Q i := by
  intro l
  induction l with
  | nil => intro m hm _ i hi; exact hm i hi
  | cons p ps ih =>
    intro m hm hl i hi
    refine ih _ ?_ (fun q hq => hl q (List.mem_cons_of_mem _ hq)) i hi
    intro j hj
    rcases instMem_upsert.mp hj with hj2 | hj2
    · exact hm j hj2
    · subst hj2
      exact hl p (by simp)

theorem cmpRes_isLE_total (r : CmpRes) : r.isLE = true ∨ r.neg.isLE = true := by
  cases r with
  | fin q =>
    rcases le_total q 0 with h | h
    · left; simp [CmpRes.isLE, h]
    · right; simp [CmpRes.neg, CmpRes.isLE]; linarith
  | posInf => right; simp [CmpRes.neg, CmpRes.isLE]
  | negInf => left; simp [CmpRes.isLE]

theorem cmpVerStr_total (x y : String) :
    (cmpVerStr x y).isLE = true ∨ (cmpVerStr y x).isLE = true := by
  rcases cmpRes_isLE_total (cmpVerStr x y) with h | h
  · left; exact h
  · right
    unfold cmpVerStr
    rw [compareVersions_anti (some y) (some x)]
    exact h

theorem mem_appList {fetches : List (SourceConfig × Except String (List ContainerInfo))}
    {app : AggregatedApp} (h : app ∈ appListOf fetches) :
    ∃ kv, kv ∈ workingMapOf fetches ∧ app = finalizeApp kv.2 := by
  unfold appListOf at h
  rcases List.mem_map.mp (jsSort_mem.mp h) with ⟨kv, hkv, hEq⟩
  exact ⟨kv, hkv, hEq.symm⟩

theorem workingMap_nonempty (fetches : List (SourceConfig × Except String (List ContainerInfo))) :
    ∀ kv ∈ workingMapOf fetches, kv.2.app.containers ≠ [] := by
  unfold workingMapOf
  rw [doubleFold_eq]
  refine foldl_preserves procStep (fun m => ∀ kv ∈ m, kv.2.app.containers ≠ []) ?_ _ [] (by simp)
  intro m p hm
  exact upsert_preserves_nonempty hm

theorem workingMap_id (fetches : List (SourceConfig × Except String (List ContainerInfo))) :
    ∀ kv ∈ workingMapOf fetches, kv.2.app.id = kv.1 := by
  unfold workingMapOf
  rw [doubleFold_eq]
  refine foldl_preserves procStep (fun m => ∀ kv ∈ m, kv.2.app.id = kv.1) ?_ _ [] (by simp)
  intro m p hm
  exact upsert_preserves_id hm

theorem getLastNoneIff {α : Type} (l : List α) : l.getLast? = none ↔ l = [] := by
  cases l with
  | nil => simp
  | cons a as =>
    rw [List.getLast?_eq_getLast_of_ne_nil (List.cons_ne_nil a as)]
    simp

/-- C2 (amended): every aggregated app has at least one instance;
`latestVersion` is recomputed at finalization as the last element of the
comparator-sorted version list (so it is `null` exactly when the version
set is empty and is always a member of the set); and it is a
comparator-maximum of the set whenever `compareVersions` is transitive on
that set.  (The unconditional "equals the maximum" claim fails because the
comparator is not transitive across mixed numeric/string segments — see
the counterexample.) -/
theorem c2_app_invariants_amended :
    ∀ (fetches : List (SourceConfig × Except String (List ContainerInfo))),
      ∀ app ∈ (getAggregatedAppsModel fetches).apps,
        app.containers ≠ [] ∧
        app.latestVersion = app.versions.getLast? ∧
        (app.latestVersion = none ↔ app.versions = []) ∧
        (∀ L, app.latestVersion = some L → L ∈ app.versions) ∧
        ((∀ x ∈ app.versions, ∀ y ∈ app.versions, ∀ z ∈ app.versions,
            (cmpVerStr x y).isLE = true → (cmpVerStr y z).isLE = true →
            (cmpVerStr x z).isLE = true) →
          ∀ v ∈ app.versions, ∀ L, app.latestVersion = some L →
            (cmpVerStr v L).isLE = true) := by
  intro fetches app happ
  have happ2 : app ∈ appListOf fetches := happ
  obtain ⟨kv, hkv, rfl⟩ := mem_appList happ2
  refine ⟨?_, rfl, ?_, ?_, ?_⟩
  · simp only [finalizeApp]
    intro hnil
    have hperm := jsSort_perm (fun a b => codeUnitCmp a.sourceLabel b.sourceLabel)
      kv.2.app.containers
    rw [hnil] at hperm
    exact workingMap_nonempty fetches kv hkv hperm.symm.eq_nil
  · simp only [finalizeApp]
    exact getLastNoneIff _
  · intro L hL
    simp only [finalizeApp] at hL ⊢
    obtain ⟨h9, hEq⟩ := List.mem_getLast?_eq_getLast (Option.mem_def.mpr hL)
    rw [hEq]
    exact List.getLast_mem h9
  · intro htrans v hv L hL
    simp only [finalizeApp] at htrans hv hL ⊢
    have hch := jsSort_chain cmpVerStr cmpVerStr_total kv.2.app.versions
    rcases chain_getLast_max cmpVerStr (jsSort cmpVerStr kv.2.app.versions) hch
        htrans v hv L hL with h | h
    · exact h
    · subst h
      unfold cmpVerStr
      rw [compareVersions_self]
      rfl

/-- C2 fails as stated: on the cycle input the single aggregated app ends
with `latestVersion = "1a"`, yet `"2"` is in its version set and compares
strictly greater, so `latestVersion` is not a maximum of the version set
under the comparator (no element is: the comparator is cyclic here). -/
theorem c2_counterexample :
    ∃ app ∈ (getAggregatedAppsModel c2fetches).apps,
      app.latestVersion = some "1a" ∧ "2" ∈ app.versions ∧
      (compareVersions (some "2") app.latestVersion).isGT = true := by
  decide

theorem c2_app_invariants_amended_witness :
    c2wApp.containers ≠ [] ∧ (cmpVerStr "1.0" "2.0").isLE = true := by
  have h := c2_app_invariants_amended c2wfetches c2wApp (by decide)
  exact ⟨h.1, h.2.2.2.2 (by decide) "1.0" (by decide) "2.0" (by decide)⟩

/-! ## Facts about the statistics fold -/

theorem setAssoc_lookup_self {α : Type} (m : List (String × α)) (k : String) (v : α) :
    lookupAssoc (setAssoc m k v) k = some v := by
  unfold setAssoc
  by_cases h : (lookupAssoc m k).isSome
  · rw [if_pos h, lookupAssoc_updateAssoc_self]
    rcases Option.isSome_iff_exists.mp h with ⟨w, hw⟩
    rw [hw]
    rfl
  · rw [if_neg h, lookupAssoc_append]
    have h2 : lookupAssoc m k = none := Option.not_isSome_iff_eq_none.mp h
    rw [h2]
    simp [lookupAssoc_cons, lookupAssoc_nil]

theorem setAssoc_lookup_other {α : Type} (m : List (String × α)) (k k2 : String) (v : α)
    (hne : k2 ≠ k) : lookupAssoc (setAssoc m k v) k2 = lookupAssoc m k2 := by
  unfold setAssoc
  by_cases h : (lookupAssoc m k).isSome
  · rw [if_pos h, lookupAssoc_updateAssoc_other _ _ _ _ hne]
  · rw [if_neg h, lookupAssoc_append]
    cases h2 : lookupAssoc m k2 with
    | none =>
      have : ¬ (k, v).1 = k2 := fun hh => hne hh.symm
      simp [lookupAssoc_cons, lookupAssoc_nil, this]
    | some w => simp

theorem bumpCrashed_label (c : ServerInstance) (s : ServerStats) :
    (bumpCrashed c s).sourceLabel = s.sourceLabel := by
  unfold bumpCrashed
  cases c.exitCode with
  | none => rfl
  | some ec =>
    dsimp only
    split <;> rfl

theorem bumpRunState_label (c : ServerInstance) (s : ServerStats) :
    (bumpRunState c s).sourceLabel = s.sourceLabel := by
  unfold bumpRunState
  split
  · rfl
  · rw [bumpCrashed_label]

theorem bumpOutdated_label (app : AggregatedApp) (c : ServerInstance) (s : ServerStats) :
    (bumpOutdated app c s).sourceLabel = s.sourceLabel := by
  unfold bumpOutdated
  split
  · split <;> rfl
  · rfl

theorem bumpStats_label (app : AggregatedApp) (c : ServerInstance) (s : ServerStats) :
    (bumpStats app c s).sourceLabel = s.sourceLabel := by
  unfold bumpStats
  rw [bumpOutdated_label, bumpRunState_label]
  rfl

theorem bumpStats_outdated (app : AggregatedApp) (c : ServerInstance) (s : ServerStats) :
    (bumpStats app c s).outdated =
      s.outdated +
        (if (!(jsFalsy app.latestVersion) && !(jsFalsy c.version) &&
            (compareVersions c.version app.latestVersion).isLT) = true then 1 else 0) := by
  have hmid : (bumpRunState c (bumpTotal s)).outdated = s.outdated := by
    unfold bumpRunState bumpCrashed bumpTotal
    split
    · rfl
    · cases c.exitCode with
      | none => rfl
      | some ec => dsimp only; split <;> rfl
  unfold bumpOutdated at *
  unfold bumpStats
  unfold bumpOutdated
  by_cases h1 : ¬ jsFalsy app.latestVersion ∧ ¬ jsFalsy c.version
  · rw [if_pos h1]
    by_cases h2 : (compareVersions c.version app.latestVersion).isLT = true
    · rw [if_pos h2]
      simp only [hmid]
      obtain ⟨ha, hb⟩ := h1
      simp [Bool.not_eq_true] at ha hb
      simp [ha, hb, h2]
    · rw [if_neg h2]
      rw [hmid]
      simp only [Bool.not_eq_true] at h2
      simp [h2]
  · rw [if_neg h1]
    rw [hmid]
    have : ¬ (!(jsFalsy app.latestVersion) && !(jsFalsy c.version) &&
        (compareVersions c.version app.latestVersion).isLT) = true := by
      intro hc
      apply h1
      simp only [Bool.and_eq_true, Bool.not_eq_true'] at hc
      exact ⟨by simp [hc.1.1], by simp [hc.1.2]⟩
    simp [this]

theorem bumpStats_crashed (app : AggregatedApp) (c : ServerInstance) (s : ServerStats) :
    (bumpStats app c s).crashed =
      s.crashed +
        (if (decide (¬ c.state = "running") &&
            (match c.exitCode with
             | some ec => decide (ec ≠ 0)
             | none => false)) = true then 1 else 0) := by
  have houter : ∀ t : ServerStats, (bumpOutdated app c t).crashed = t.crashed := by
    intro t
    unfold bumpOutdated
    split
    · split <;> rfl
    · rfl
  unfold bumpStats
  rw [houter]
  unfold bumpRunState bumpCrashed bumpTotal
  by_cases hr : c.state = "running"
  · rw [if_pos hr]
    simp [hr]
  · rw [if_neg hr]
    cases hec : c.exitCode with
    | none => simp [hr]
    | some ec =>
      dsimp only
      by_cases hz : ec ≠ 0
      · rw [if_pos hz]
        simp [hr, hz]
      · rw [if_neg hz]
        simp only [not_not] at hz
        simp [hr, hz]

theorem statsStep_outdated (hl : String) (m : List (String × ServerStats))
    (p : AggregatedApp × ServerInstance) :
    ((lookupAssoc (statsStep m p) hl).map (·.outdated)).getD 0 =
      ((lookupAssoc m hl).map (·.outdated)).getD 0 +
        (if outdatedPred hl p then 1 else 0) := by
  unfold statsStep
  by_cases hh : hl = p.2.sourceLabel
  · subst hh
    rw [setAssoc_lookup_self]
    simp only [Option.map_some', Option.getD_some]
    rw [bumpStats_outdated]
    have hbase : ((lookupAssoc m p.2.sourceLabel).getD (freshStats p.2)).outdated =
        ((lookupAssoc m p.2.sourceLabel).map (·.outdated)).getD 0 := by
      cases lookupAssoc m p.2.sourceLabel with
      | none => rfl
      | some w => rfl
    rw [hbase]
    congr 1
    unfold outdatedPred
    simp
  · rw [setAssoc_lookup_other _ _ _ _ hh]
    have : outdatedPred hl p = false := by
      unfold outdatedPred
      have : decide (p.2.sourceLabel = hl) = false := by
        simp
        exact fun hc => hh hc.symm
      simp [this]
    simp [this]

theorem statsStep_crashed (hl : String) (m : List (String × ServerStats))
    (p : AggregatedApp × ServerInstance) :
    ((lookupAssoc (statsStep m p) hl).map (·.crashed)).getD 0 =
      ((lookupAssoc m hl).map (·.crashed)).getD 0 +
        (if crashedPred hl p then 1 else 0) := by
  unfold statsStep
  by_cases hh : hl = p.2.sourceLabel
  · subst hh
    rw [setAssoc_lookup_self]
    simp only [Option.map_some', Option.getD_some]
    rw [bumpStats_crashed]
    have hbase : ((lookupAssoc m p.2.sourceLabel).getD (freshStats p.2)).crashed =
        ((lookupAssoc m p.2.sourceLabel).map (·.crashed)).getD 0 := by
      cases lookupAssoc m p.2.sourceLabel with
      | none => rfl
      | some w => rfl
    rw [hbase]
    congr 1
    unfold crashedPred
    simp
  · rw [setAssoc_lookup_other _ _ _ _ hh]
    have : crashedPred hl p = false := by
      unfold crashedPred
      have : decide (p.2.sourceLabel = hl) = false := by
        simp
        exact fun hc => hh hc.symm
      simp [this]
    simp [this]

theorem statsFold_outdated (hl : String) :
    ∀ (l : List (AggregatedApp × ServerInstance)) (m : List (String × ServerStats)),
      ((lookupAssoc (l.foldl statsStep m) hl).map (·.outdated)).getD 0 =
        ((lookupAssoc m hl).map (·.outdated)).getD 0 + l.countP (outdatedPred hl) := by
  intro l
  induction l with
  | nil => intro m; simp
  | cons p ps ih =>
    intro m
    rw [List.foldl_cons, ih, statsStep_outdated, List.countP_cons]
    omega

theorem statsFold_crashed (hl : String) :
    ∀ (l : List (AggregatedApp × ServerInstance)) (m : List (String × ServerStats)),
      ((lookupAssoc (l.foldl statsStep m) hl).map (·.crashed)).getD 0 =
        ((lookupAssoc m hl).map (·.crashed)).getD 0 + l.countP (crashedPred hl) := by
  intro l
  induction l with
  | nil => intro m; simp
  | cons p ps ih =>
    intro m
    rw [List.foldl_cons, ih, statsStep_crashed, List.countP_cons]
    omega

theorem updateAssoc_keys {α : Type} (m : List (String × α)) (k : String) (f : α → α) :
    (updateAssoc m k f).map Prod.fst = m.map Prod.fst := by
  induction m with
  | nil => rfl
  | cons kv m ih =>
    unfold updateAssoc at *
    simp only [List.map_cons]
    by_cases h : kv.1 = k
    · rw [if_pos h]
      exact congrArg _ ih
    · rw [if_neg h]
      exact congrArg _ ih

theorem setAssoc_keys_nodup {α : Type} {m : List (String × α)} (k : String) (v : α)
    (h : (m.map Prod.fst).Nodup) : ((setAssoc m k v).map Prod.fst).Nodup := by
  unfold setAssoc
  by_cases hp : (lookupAssoc m k).isSome
  · rw [if_pos hp, updateAssoc_keys]
    exact h
  · rw [if_neg hp, List.map_append]
    rw [List.nodup_append]
    refine ⟨h, by simp, ?_⟩
    intro a ha
    simp only [List.map_cons, List.map_nil, List.mem_singleton]
    intro hb
    subst hb
    have h2 : lookupAssoc m a = none := Option.not_isSome_iff_eq_none.mp hp
    rcases List.mem_map.mp ha with ⟨kv, hkv, hEq⟩
    exact lookupAssoc_none h2 kv hkv hEq

theorem statsStep_inv {m : List (String × ServerStats)}
    {p : AggregatedApp × ServerInstance}
    (h : (∀ kv ∈ m, kv.2.sourceLabel = kv.1) ∧ (m.map Prod.fst).Nodup) :
    (∀ kv ∈ statsStep m p, kv.2.sourceLabel = kv.1) ∧
      ((statsStep m p).map Prod.fst).Nodup := by
  obtain ⟨hlab, hnd⟩ := h
  constructor
  · intro kv hkv
    unfold statsStep setAssoc at hkv
    by_cases hp : (lookupAssoc m p.2.sourceLabel).isSome
    · rw [if_pos hp] at hkv
      unfold updateAssoc at hkv
      rcases List.mem_map.mp hkv with ⟨kv0, hkv0, hEq⟩
      by_cases hk : kv0.1 = p.2.sourceLabel
      · rw [if_pos hk] at hEq
        subst hEq
        rw [bumpStats_label]
        cases hlk : lookupAssoc m p.2.sourceLabel with
        | none => rw [hlk] at hp; simp at hp
        | some w =>
          rw [Option.getD_some]
          have hw : (p.2.sourceLabel, w) ∈ m := lookupAssoc_mem hlk
          have := hlab (p.2.sourceLabel, w) hw
          dsimp only at hk ⊢
          rw [hk]
          exact this
      · rw [if_neg hk] at hEq
        subst hEq
        exact hlab kv0 hkv0
    · rw [if_neg hp] at hkv
      rcases List.mem_append.mp hkv with hm | hnew
      · exact hlab kv hm
      · simp only [List.mem_singleton] at hnew
        subst hnew
        rw [bumpStats_label]
        have h2 : lookupAssoc m p.2.sourceLabel = none :=
          Option.not_isSome_iff_eq_none.mp hp
        rw [h2]
        rfl
  · unfold statsStep
    exact setAssoc_keys_nodup _ _ hnd

theorem statsFold_inv :
    ∀ (l : List (AggregatedApp × ServerInstance)),
      (∀ kv ∈ l.foldl statsStep [], kv.2.sourceLabel = kv.1) ∧
        ((l.foldl statsStep []).map Prod.fst).Nodup := by
  intro l
  refine foldl_preserves statsStep
    (fun m => (∀ kv ∈ m, kv.2.sourceLabel = kv.1) ∧ (m.map Prod.fst).Nodup) ?_ l [] ?_
  · intro m p hm
    exact statsStep_inv hm
  · exact ⟨by simp, by simp⟩

/-- C3 (amended): in the per-host statistics, for every host record, the
outdated count equals the number of that host's instances whose truthy
version label compares strictly below their owning app's truthy
`latestVersion` under the comparator — instances without a version label
are skipped, unlike under the claim's unguarded predicate (see the
counterexample) — and the crashed count equals the number of stopped
(non-running) instances with a non-null, non-zero exit code. -/
theorem c3_server_stats_counts :
    ∀ (fetches : List (SourceConfig × Except String (List ContainerInfo))),
      ∀ st ∈ (getAggregatedAppsModel fetches).serverStats,
        st.outdated = (statPairs (appListOf fetches)).countP (outdatedPred st.sourceLabel) ∧
        st.crashed = (statPairs (appListOf fetches)).countP (crashedPred st.sourceLabel) := by
  intro fetches st hst
  have hst2 : st ∈ ((statPairs (appListOf fetches)).foldl statsStep []).map (·.2) :=
    jsSort_mem.mp hst
  rcases List.mem_map.mp hst2 with ⟨kv, hkv, hEq⟩
  obtain ⟨hlab, hnd⟩ := statsFold_inv (statPairs (appListOf fetches))
  have hkey : kv.1 = st.sourceLabel := by
    rw [← hEq]
    exact (hlab kv hkv).symm
  have hkv2 : (kv.1, kv.2) ∈ (statPairs (appListOf fetches)).foldl statsStep [] := by
    simpa using hkv
  have hlook := mem_lookupAssoc_of_nodup hnd hkv2
  rw [hkey] at hlook
  constructor
  · have h1 := statsFold_outdated st.sourceLabel (statPairs (appListOf fetches)) []
    rw [hlook] at h1
    simp only [Option.map_some', Option.getD_some, lookupAssoc_nil] at h1
    calc st.outdated = kv.2.outdated := (congrArg (fun x => x.outdated) hEq).symm
      _ = _ := by simpa using h1
  · have h1 := statsFold_crashed st.sourceLabel (statPairs (appListOf fetches)) []
    rw [hlook] at h1
    simp only [Option.map_some', Option.getD_some, lookupAssoc_nil] at h1
    calc st.crashed = kv.2.crashed := (congrArg (fun x => x.crashed) hEq).symm
      _ = _ := by simpa using h1

theorem c3_server_stats_counts_witness :
    c3St.outdated = (statPairs (appListOf c3fetches)).countP (outdatedPred c3St.sourceLabel) ∧
    c3St.crashed = (statPairs (appListOf c3fetches)).countP (crashedPred c3St.sourceLabel) :=
  c3_server_stats_counts c3fetches c3St (by decide)

/-! ## C4: partial-failure semantics -/

theorem warningsOf_append (a b : List (SourceConfig × Except String (List ContainerInfo))) :
    warningsOf (a ++ b) = warningsOf a ++ warningsOf b := by
  unfold warningsOf
  exact List.filterMap_append _ _ _

theorem warningsOf_ok_nil (l : List (SourceConfig × Except String (List ContainerInfo)))
    (h : ∀ sr ∈ l, ∃ cs, sr.2 = Except.ok cs) : warningsOf l = [] := by
  induction l with
  | nil => rfl
  | cons sr rest ih =>
    obtain ⟨cs, hcs⟩ := h sr (by simp)
    unfold warningsOf at *
    rw [List.filterMap_cons, hcs]
    exact ih (fun sr2 h2 => h sr2 (List.mem_cons_of_mem _ h2))

theorem mem_flatPairs_matrix {fetches : List (SourceConfig × Except String (List ContainerInfo))}
    {p : SourceConfig × ContainerInfo}
    (h : p ∈ flatPairs (containerMatrixOf fetches)) :
    ∃ sr ∈ fetches, sr.1 = p.1 ∧ ∃ cs, sr.2 = Except.ok cs ∧ p.2 ∈ cs := by
  unfold flatPairs containerMatrixOf at h
  rcases List.mem_flatMap.mp h with ⟨sc, hsc, hp⟩
  rcases List.mem_map.mp hsc with ⟨sr, hsr, hEq⟩
  rcases List.mem_map.mp hp with ⟨c, hc, hpc⟩
  refine ⟨sr, hsr, ?_, ?_⟩
  · rw [← hpc, ← hEq]
  · cases hres : sr.2 with
    | ok cs =>
      refine ⟨cs, rfl, ?_⟩
      rw [← hEq] at hc
      simp only [hres] at hc
      have : p.2 = c := by rw [← hpc]
      rw [this]
      exact hc
    | error e =>
      exfalso
      rw [← hEq] at hc
      simp only [hres] at hc
      exact absurd hc (List.not_mem_nil c)

theorem flatPairs_mem_of {fetches : List (SourceConfig × Except String (List ContainerInfo))}
    {sr : SourceConfig × Except String (List ContainerInfo)} {cs : List ContainerInfo}
    {c : ContainerInfo} (hsr : sr ∈ fetches) (hok : sr.2 = Except.ok cs) (hc : c ∈ cs) :
    (sr.1, c) ∈ flatPairs (containerMatrixOf fetches) := by
  unfold flatPairs containerMatrixOf
  refine List.mem_flatMap.mpr ⟨(sr.1, cs), ?_, ?_⟩
  · refine List.mem_map.mpr ⟨sr, hsr, ?_⟩
    rw [hok]
  · exact List.mem_map.mpr ⟨c, hc, rfl⟩

theorem workingMapOf_eq_flat (fetches : List (SourceConfig × Except String (List ContainerInfo))) :
    workingMapOf fetches = (flatPairs (containerMatrixOf fetches)).foldl procStep [] := by
  unfold workingMapOf
  exact doubleFold_eq _ _


/-- C3 counterexample: two containers of one app, pinned by image tags
`1.0` and `2.0`, with no `org.opencontainers.image.version` label.  Both
instances have a `null` version while the app's `latestVersion` is
`"2.0"`, and `compare(null, "2.0") < 0`, so the claim's predicate counts
both instances as outdated; the code skips falsy versions and reports
`outdated = 0` for the host. -/
theorem c3_counterexample :
    (∀ st ∈ (getAggregatedAppsModel c3cfetches).serverStats, st.outdated = 0) ∧
    (statPairs (appListOf c3cfetches)).countP (specOutdatedPred "Host 1") = 2 ∧
    (statPairs (appListOf c3cfetches)).countP (outdatedPred "Host 1") = 0 ∧
    (∀ p ∈ statPairs (appListOf c3cfetches),
      p.2.version = none ∧ p.1.latestVersion = some "2.0") := by
  decide

/-- C4: when exactly one configured source rejects (all others resolve),
the aggregate result carries exactly one warning — for that source — and
no ServerInstance of the failed source; every other source's containers
are present, each inside the app whose id is its computed grouping key.
(The model is a total function, so the aggregate call as a whole cannot
fail.) -/
theorem c4_partial_failure :
    ∀ (pre post : List (SourceConfig × Except String (List ContainerInfo)))
      (S : SourceConfig) (e : String),
      (∀ sr ∈ pre ++ post, sr.1.name ≠ S.name) →
      (∀ sr ∈ pre ++ post, ∃ cs, sr.2 = Except.ok cs) →
      (getAggregatedAppsModel (pre ++ (S, Except.error e) :: post)).warnings =
          [{ source := S.name, message := e }] ∧
      (∀ app ∈ (getAggregatedAppsModel (pre ++ (S, Except.error e) :: post)).apps,
        ∀ inst ∈ app.containers, inst.sourceId ≠ S.name) ∧
      (∀ sr ∈ pre ++ post, ∀ cs, sr.2 = Except.ok cs → ∀ c ∈ cs,
        ∃ app ∈ (getAggregatedAppsModel (pre ++ (S, Except.error e) :: post)).apps,
          app.id = appIdOfContainer c ∧
          toServerInstance sr.1 c ∈ app.containers) := by
  intro pre post S e hname hok
  refine ⟨?_, ?_, ?_⟩
  · rw [show (getAggregatedAppsModel (pre ++ (S, Except.error e) :: post)).warnings =
        warningsOf (pre ++ (S, Except.error e) :: post) from rfl]
    rw [warningsOf_append]
    rw [warningsOf_ok_nil pre (fun sr h => hok sr (List.mem_append_left _ h))]
    rw [show warningsOf ((S, Except.error e) :: post) =
        { source := S.name, message := e } :: warningsOf post from rfl]
    rw [warningsOf_ok_nil post (fun sr h => hok sr (List.mem_append_right _ h))]
    rfl
  · intro app happ inst hinst
    have happ2 : app ∈ appListOf (pre ++ (S, Except.error e) :: post) := happ
    obtain ⟨kv, hkv, rfl⟩ := mem_appList happ2
    have hinst2 : inst ∈ kv.2.app.containers := by
      simp only [finalizeApp] at hinst
      exact jsSort_mem.mp hinst
    have hIM : instMem (workingMapOf (pre ++ (S, Except.error e) :: post)) inst :=
      ⟨kv, hkv, hinst2⟩
    rw [workingMapOf_eq_flat] at hIM
    refine fold_instMem_pred (fun i => i.sourceId ≠ S.name)
      (flatPairs (containerMatrixOf (pre ++ (S, Except.error e) :: post))) []
      (fun i hi => absurd hi (by simp [instMem])) ?_ inst hIM
    intro p hp
    rcases mem_flatPairs_matrix hp with ⟨sr, hsr, hname2, cs, hcs, hc⟩
    have hsr2 : sr ∈ pre ++ post := by
      rcases List.mem_append.mp hsr with h2 | h2
      · exact List.mem_append_left _ h2
      · rcases List.mem_cons.mp h2 with h3 | h3
        · exfalso
          rw [h3] at hcs
          simp at hcs
        · exact List.mem_append_right _ h3
    have := hname sr hsr2
    rw [show (toServerInstance p.1 p.2).sourceId = p.1.name from rfl, ← hname2]
    exact this
  · intro sr hsr cs hcs c hc
    have hsr2 : sr ∈ pre ++ (S, Except.error e) :: post := by
      rcases List.mem_append.mp hsr with h2 | h2
      · exact List.mem_append_left _ h2
      · exact List.mem_append_right _ (List.mem_cons_of_mem _ h2)
    have hp := flatPairs_mem_of hsr2 hcs hc
    have hfold := fold_mem_of_processed
      (flatPairs (containerMatrixOf (pre ++ (S, Except.error e) :: post))) [] (sr.1, c) hp
    obtain ⟨wa, hlook, hmem⟩ := hfold
    rw [← workingMapOf_eq_flat] at hlook
    have hkv := lookupAssoc_mem hlook
    refine ⟨finalizeApp wa, ?_, ?_, ?_⟩
    · have : finalizeApp wa ∈ (workingMapOf (pre ++ (S, Except.error e) :: post)).map
          (fun kv => finalizeApp kv.2) :=
        List.mem_map.mpr ⟨(appIdOfContainer (sr.1, c).2, wa), hkv, rfl⟩
      exact jsSort_mem.mpr this
    · have hid := workingMap_id (pre ++ (S, Except.error e) :: post)
        (appIdOfContainer (sr.1, c).2, wa) hkv
      simp only [finalizeApp]
      exact hid
    · simp only [finalizeApp]
      exact jsSort_mem.mpr hmem

theorem c4_partial_failure_witness :
    (getAggregatedAppsModel
        (c4pre ++ (c4src2, Except.error "connect ECONNREFUSED") :: [])).warnings =
      [{ source := "s2", message := "connect ECONNREFUSED" }] ∧
    (∃ app ∈ (getAggregatedAppsModel
        (c4pre ++ (c4src2, Except.error "connect ECONNREFUSED") :: [])).apps,
      app.id = appIdOfContainer c4c1 ∧ toServerInstance c4src1 c4c1 ∈ app.containers) := by
  have h := c4_partial_failure c4pre [] c4src2 "connect ECONNREFUSED"
    (by decide)
    (fun sr hsr => by
      simp only [List.append_nil, c4pre, List.mem_singleton] at hsr
      subst hsr
      exact ⟨[c4c1], rfl⟩)
  refine ⟨h.1, ?_⟩
  have h3 := h.2.2 (c4src1, Except.ok [c4c1]) (by simp [c4pre]) [c4c1] rfl c4c1 (by simp)
  exact h3

/-! ## C5/C7: caching and pagination bounds of the digest resolvers -/

theorem dhBody_c5 {env env2 : ℕ → HubResponse}
    {cache : TagCache} {t0 t1 : Int} {ref : ImageReference} {digest tag : String}
    (hres : (dhResolveBody env cache t0 ref digest).result = some tag)
    (ht : t1 < t0 + yearTtlMs) :
    resolveVersionFromDigestDockerHub env2
        (dhResolveBody env cache t0 ref digest).cache t1 ref digest =
      { result := some tag,
        cache := (dhResolveBody env cache t0 ref digest).cache,
        fetches := 0 } := by
  unfold dhResolveBody at *
  rcases hloop : dhLoop env (stripShaAnchor digest.data) 5 1 (none, []) 0 with ⟨opt, n⟩
  cases opt with
  | none =>
    rw [hloop] at hres
    simp at hres
  | some st =>
    rw [hloop] at hres
    dsimp only at hres
    unfold resolveVersionFromDigestDockerHub
    rw [setAssoc_lookup_self]
    dsimp only
    rw [if_pos (show t0 + yearTtlMs > t1 from ht)]
    simp [hres]

theorem dh_c5 {env env2 : ℕ → HubResponse} {cache : TagCache} {t0 t1 : Int}
    {ref : ImageReference} {digest tag : String}
    (hres : (resolveVersionFromDigestDockerHub env cache t0 ref digest).result = some tag)
    (hfetch : 0 < (resolveVersionFromDigestDockerHub env cache t0 ref digest).fetches)
    (ht : t1 < t0 + yearTtlMs) :
    resolveVersionFromDigestDockerHub env2
        (resolveVersionFromDigestDockerHub env cache t0 ref digest).cache t1 ref digest =
      { result := some tag,
        cache := (resolveVersionFromDigestDockerHub env cache t0 ref digest).cache,
        fetches := 0 } := by
  unfold resolveVersionFromDigestDockerHub at hres hfetch
  cases hl : lookupAssoc cache (dhCacheKey ref digest) with
  | some entry =>
    rw [hl] at hres hfetch
    dsimp only at hres hfetch
    by_cases hf0 : entry.2 > t0
    · rw [if_pos hf0] at hfetch
      simp at hfetch
    · rw [if_neg hf0] at hres hfetch
      have hcache : (resolveVersionFromDigestDockerHub env cache t0 ref digest).cache =
          (dhResolveBody env cache t0 ref digest).cache := by
        unfold resolveVersionFromDigestDockerHub
        rw [hl]
        dsimp only
        rw [if_neg hf0]
      rw [hcache]
      exact dhBody_c5 hres ht
  | none =>
    rw [hl] at hres hfetch
    dsimp only at hres hfetch
    have hcache : (resolveVersionFromDigestDockerHub env cache t0 ref digest).cache =
        (dhResolveBody env cache t0 ref digest).cache := by
      unfold resolveVersionFromDigestDockerHub
      rw [hl]
    rw [hcache]
    exact dhBody_c5 hres ht

theorem ghcrBody_c5 {env env2 : GhcrEnv} {cache : TagCache} {t0 t1 : Int}
    {ref : ImageReference} {digest tag : String}
    (hres : (ghcrResolveBody env cache t0 ref digest).result = some tag)
    (ht : t1 < t0 + yearTtlMs) :
    resolveVersionFromDigestGHCR env2
        (ghcrResolveBody env cache t0 ref digest).cache t1 ref digest =
      { result := some tag,
        cache := (ghcrResolveBody env cache t0 ref digest).cache,
        fetches := 0 } := by
  unfold ghcrResolveBody at *
  cases htags : env.tags with
  | notFound => rw [htags] at hres; simp at hres
  | failure => rw [htags] at hres; simp at hres
  | ok otags =>
    rw [htags] at hres
    cases otags with
    | none => simp at hres
    | some tags =>
      dsimp only at hres ⊢
      by_cases hnil : tags = []
      · rw [if_pos hnil] at hres
        simp at hres
      · rw [if_neg hnil] at hres ⊢
        rcases hloop : ghcrTagLoop env (stripShaAnchor digest.data) (tags.take 100)
            (none, []) 2 with ⟨st, n⟩
        rw [hloop] at hres
        dsimp only at hres
        unfold resolveVersionFromDigestGHCR
        rw [setAssoc_lookup_self]
        dsimp only
        rw [if_pos (show t0 + yearTtlMs > t1 from ht)]
        simp [hres]

theorem ghcr_c5 {env env2 : GhcrEnv} {cache : TagCache} {t0 t1 : Int}
    {ref : ImageReference} {digest tag : String}
    (hres : (resolveVersionFromDigestGHCR env cache t0 ref digest).result = some tag)
    (hfetch : 0 < (resolveVersionFromDigestGHCR env cache t0 ref digest).fetches)
    (ht : t1 < t0 + yearTtlMs) :
    resolveVersionFromDigestGHCR env2
        (resolveVersionFromDigestGHCR env cache t0 ref digest).cache t1 ref digest =
      { result := some tag,
        cache := (resolveVersionFromDigestGHCR env cache t0 ref digest).cache,
        fetches := 0 } := by
  unfold resolveVersionFromDigestGHCR at hres hfetch
  cases hl : lookupAssoc cache (ghcrCacheKey ref digest) with
  | some entry =>
    rw [hl] at hres hfetch
    dsimp only at hres hfetch
    by_cases hf0 : entry.2 > t0
    · rw [if_pos hf0] at hfetch
      simp at hfetch
    · rw [if_neg hf0] at hres hfetch
      have hcache : (resolveVersionFromDigestGHCR env cache t0 ref digest).cache =
          (ghcrResolveBody env cache t0 ref digest).cache := by
        unfold resolveVersionFromDigestGHCR
        rw [hl]
        dsimp only
        rw [if_neg hf0]
      rw [hcache]
      exact ghcrBody_c5 hres ht
  | none =>
    rw [hl] at hres hfetch
    dsimp only at hres hfetch
    have hcache : (resolveVersionFromDigestGHCR env cache t0 ref digest).cache =
        (ghcrResolveBody env cache t0 ref digest).cache := by
      unfold resolveVersionFromDigestGHCR
      rw [hl]
    rw [hcache]
    exact ghcrBody_c5 hres ht

/-- C5: a digest→tag resolution that resolved a tag over the network (at
least one fetch, i.e. no fresh cache entry served it) is cached under the
`(namespace/repository, digest)` key with the effectively-permanent
one-year TTL, so a second call with the same arguments — under any network
behaviour whatsoever — returns the identical tag with zero network
accesses and leaves the cache unchanged; this holds on both the Docker Hub
and the GHCR path of the dispatcher.  The metadata caches, by contrast,
are bounded by the configurable icon/description TTLs. -/
theorem c5_digest_resolution_cached_permanently :
    ∀ (enabled : Bool) (envDH envDH2 : ℕ → HubResponse) (envG envG2 : GhcrEnv)
      (cache : TagCache) (t0 t1 : Int) (ref : ImageReference) (digest tag : String),
      (resolveVersionFromDigest enabled envDH envG cache t0 ref digest).result = some tag →
      0 < (resolveVersionFromDigest enabled envDH envG cache t0 ref digest).fetches →
      t1 < t0 + yearTtlMs →
      resolveVersionFromDigest enabled envDH2 envG2
          (resolveVersionFromDigest enabled envDH envG cache t0 ref digest).cache
          t1 ref digest =
        { result := some tag,
          cache := (resolveVersionFromDigest enabled envDH envG cache t0 ref digest).cache,
          fetches := 0 } := by
  intro enabled envDH envDH2 envG envG2 cache t0 t1 ref digest tag hres hfetch ht
  by_cases hen : ¬ enabled = true
  · rw [resolveVersionFromDigest, if_pos hen] at hres
    simp at hres
  · by_cases hdh : jsFalsy ref.registry = true ∨
        ref.registry.map (fun r => jsTrim (jsToLower r)) = some "docker.io" ∨
        ref.registry.map (fun r => jsTrim (jsToLower r)) = some "index.docker.io"
    · have he : resolveVersionFromDigest enabled envDH envG cache t0 ref digest =
          resolveVersionFromDigestDockerHub envDH cache t0 ref digest := by
        rw [resolveVersionFromDigest, if_neg hen, if_pos hdh]
      rw [he] at hres hfetch ⊢
      rw [resolveVersionFromDigest, if_neg hen, if_pos hdh]
      exact dh_c5 hres hfetch ht
    · by_cases hg : ref.registry.map (fun r => jsTrim (jsToLower r)) = some "ghcr.io"
      · have he : resolveVersionFromDigest enabled envDH envG cache t0 ref digest =
            resolveVersionFromDigestGHCR envG cache t0 ref digest := by
          rw [resolveVersionFromDigest, if_neg hen, if_neg hdh, if_pos hg]
        rw [he] at hres hfetch ⊢
        rw [resolveVersionFromDigest, if_neg hen, if_neg hdh, if_pos hg]
        exact ghcr_c5 hres hfetch ht
      · rw [resolveVersionFromDigest, if_neg hen, if_neg hdh, if_neg hg] at hres
        simp at hres

theorem dhLoop_fetches_le (env : ℕ → HubResponse) (nd : List Char) :
    ∀ (pagesLeft page : ℕ) (st : Option String × List String) (n : ℕ),
      (dhLoop env nd pagesLeft page st n).2 ≤ n + pagesLeft := by
  intro pagesLeft
  induction pagesLeft with
  | zero => intro page st n; simp [dhLoop]
  | succ pl ih =>
    intro page st n
    unfold dhLoop
    cases env page with
    | notFound => dsimp only; omega
    | failure => dsimp only; omega
    | ok payload =>
      dsimp only
      cases payload.results with
      | none => dsimp only; omega
      | some results =>
        dsimp only
        by_cases hnil : results = []
        · rw [if_pos hnil]
          dsimp only
          omega
        · rw [if_neg hnil]
          by_cases hnext : jsFalsy payload.next = true
          · rw [if_pos hnext]
            dsimp only
            omega
          · rw [if_neg hnext]
            have := ih (page + 1) (processTags nd results st) (n + 1)
            omega

/-- C7: the Docker Hub digest-resolution path performs at most 5 page
fetches, whatever the registry responds (the model is a total function,
so the path terminates on every input). -/
theorem c7_dockerhub_pagination_bounded :
    ∀ (env : ℕ → HubResponse) (cache : TagCache) (now : Int)
      (ref : ImageReference) (digest : String),
      (resolveVersionFromDigestDockerHub env cache now ref digest).fetches ≤ 5 := by
  intro env cache now ref digest
  have hbody : (dhResolveBody env cache now ref digest).fetches ≤ 5 := by
    unfold dhResolveBody
    rcases hloop : dhLoop env (stripShaAnchor digest.data) 5 1 (none, []) 0 with ⟨opt, n⟩
    have := dhLoop_fetches_le env (stripShaAnchor digest.data) 5 1 (none, []) 0
    rw [hloop] at this
    cases opt <;> simpa using this
  rw [resolveVersionFromDigestDockerHub]
  cases hl : lookupAssoc cache (dhCacheKey ref digest) with
  | some entry =>
    dsimp only
    by_cases hf : entry.2 > now
    · rw [if_pos hf]
      simp
    · rw [if_neg hf]
      exact hbody
  | none => exact hbody

theorem c5_digest_resolution_cached_permanently_witness :
    (resolveVersionFromDigest true c5envDH c5envG [] 0 c5ref "sha256:abc").result =
        some "1.2.3" ∧
    0 < (resolveVersionFromDigest true c5envDH c5envG [] 0 c5ref "sha256:abc").fetches ∧
    (1 : Int) < 0 + yearTtlMs ∧
    resolveVersionFromDigest true c5envDH2 c5envG
        (resolveVersionFromDigest true c5envDH c5envG [] 0 c5ref "sha256:abc").cache
        1 c5ref "sha256:abc" =
      { result := some "1.2.3",
        cache := (resolveVersionFromDigest true c5envDH c5envG [] 0 c5ref "sha256:abc").cache,
        fetches := 0 } :=
  ⟨by decide, by decide, by decide,
    c5_digest_resolution_cached_permanently true c5envDH c5envDH2 c5envG c5envG
      [] 0 1 c5ref "sha256:abc" "1.2.3" (by decide) (by decide) (by decide)⟩

theorem vcmp_nil_right_ne_lt : ∀ xs : List ℕ, vcmp xs [] ≠ .lt := by
  intro xs
  induction xs with
  | nil => simp [vcmp, vcmpNil]
  | cons a as ih =>
    simp only [vcmp]
    split_ifs
    · exact ih
    · simp

theorem vcmp_swap : ∀ xs ys : List ℕ, vcmp ys xs = (vcmp xs ys).swap := by
  intro xs
  induction xs with
  | nil =>
    intro ys
    induction ys with
    | nil => simp [vcmp, vcmpNil, Ordering.swap]
    | cons b bs ihb =>
      simp only [vcmp, vcmpNil]
      simp only [vcmp, vcmpNil] at ihb
      split_ifs
      · exact ihb
      · simp [Ordering.swap]
  | cons a as ih =>
    intro ys
    cases ys with
    | nil =>
      simp only [vcmp, vcmpNil]
      split_ifs
      · have hin := ih []
        simp only [vcmp] at hin
        exact hin
      · simp [Ordering.swap]
    | cons b bs =>
      simp only [vcmp]
      rcases Nat.lt_trichotomy a b with hab | hab | hab
      · rw [if_neg (show ¬ b = a by omega), if_neg (show ¬ b < a by omega),
          if_neg (show ¬ a = b by omega), if_pos hab]
        simp [Ordering.swap]
      · subst hab
        rw [if_pos rfl, if_pos rfl]
        exact ih bs
      · rw [if_neg (show ¬ b = a by omega), if_pos hab,
          if_neg (show ¬ a = b by omega), if_neg (show ¬ a < b by omega)]
        simp [Ordering.swap]

theorem vcmp_nil_left_ne_gt : ∀ ys : List ℕ, vcmp [] ys ≠ .gt := by
  intro ys
  induction ys with
  | nil => simp [vcmp, vcmpNil]
  | cons b bs ih =>
    simp only [vcmp, vcmpNil]
    simp only [vcmp, vcmpNil] at ih
    split_ifs
    · exact ih
    · simp

theorem vcmp_le_trans_aux :
    ∀ n (a b c : List ℕ), a.length + b.length + c.length ≤ n →
      vcmp a b ≠ .gt → vcmp b c ≠ .gt → vcmp a c ≠ .gt := by
  intro n
  induction n with
  | zero =>
    intro a b c hlen h1 h2
    have ha : a = [] := List.length_eq_zero.mp (by omega)
    subst ha
    exact vcmp_nil_left_ne_gt c
  | succ m ih =>
    intro a b c hlen h1 h2
    cases a with
    | nil => exact vcmp_nil_left_ne_gt c
    | cons x as =>
      cases b with
      | nil =>
        cases c with
        | nil => exact h1
        | cons z cs =>
          simp only [vcmp] at h1 ⊢
          by_cases hx : x = 0
          · rw [if_pos hx] at h1
            by_cases hz : z = 0
            · rw [if_pos (by omega)]
              refine ih as [] cs ?_ h1 (vcmp_nil_left_ne_gt cs)
              simp only [List.length_cons, List.length_nil] at hlen ⊢
              omega
            · rw [if_neg (by omega), if_pos (by omega)]
              simp
          · rw [if_neg hx] at h1
            exact absurd rfl h1
      | cons y bs =>
        cases c with
        | nil =>
          simp only [vcmp] at h1 h2 ⊢
          by_cases hy : y = 0
          · rw [if_pos hy] at h2
            by_cases hxy : x = y
            · rw [if_pos hxy] at h1
              rw [if_pos (by omega)]
              refine ih as bs [] ?_ h1 h2
              simp only [List.length_cons, List.length_nil] at hlen ⊢
              omega
            · rw [if_neg hxy] at h1
              by_cases hlt : x < y
              · omega
              · rw [if_neg hlt] at h1
                exact absurd rfl h1
          · rw [if_neg hy] at h2
            exact absurd rfl h2
        | cons z cs =>
          simp only [vcmp] at h1 h2 ⊢
          by_cases hxy : x = y
          · rw [if_pos hxy] at h1
            by_cases hyz : y = z
            · rw [if_pos hyz] at h2
              rw [if_pos (hxy.trans hyz)]
              refine ih as bs cs ?_ h1 h2
              simp only [List.length_cons] at hlen ⊢
              omega
            · rw [if_neg hyz] at h2
              by_cases hyz2 : y < z
              · rw [if_neg (by omega), if_pos (by omega)]
                simp
              · rw [if_neg hyz2] at h2
                exact absurd rfl h2
          · rw [if_neg hxy] at h1
            by_cases hxy2 : x < y
            · by_cases hyz : y = z
              · rw [if_neg (by omega), if_pos (by omega)]
                simp
              · by_cases hyz2 : y < z
                · rw [if_neg (by omega), if_pos (by omega)]
                  simp
                · rw [if_neg hyz, if_neg hyz2] at h2
                  exact absurd rfl h2
            · rw [if_neg hxy2] at h1
              exact absurd rfl h1

theorem vcmp_le_trans {a b c : List ℕ} (h1 : vcmp a b ≠ .gt) (h2 : vcmp b c ≠ .gt) :
    vcmp a c ≠ .gt :=
  vcmp_le_trans_aux (a.length + b.length + c.length) a b c le_rfl h1 h2

theorem rcmpAux_anti : ∀ l1 l2, rcmpAux l2 l1 = (rcmpAux l1 l2).neg := by
  intro l1
  induction l1 with
  | nil =>
    intro l2
    induction l2 with
    | nil => simp [rcmpAux, rcmpNil, CmpRes.neg]
    | cons b bs ih =>
      simp only [rcmpAux, rcmpNil]
      simp only [rcmpAux, rcmpNil] at ih
      split_ifs with h
      · exact ih
      · exact jsSub_anti _ _
  | cons a as ih =>
    intro l2
    cases l2 with
    | nil =>
      simp only [rcmpAux, rcmpNil]
      have ihn := ih []
      simp only [rcmpAux] at ihn
      split_ifs with h
      · exact ihn
      · exact jsSub_anti _ _
    | cons b bs =>
      simp only [rcmpAux]
      by_cases h : jsOr0 (some a) = jsOr0 (some b)
      · rw [if_pos h, if_pos h.symm]
        exact ih bs
      · rw [if_neg h, if_neg (fun hh => h hh.symm)]
        exact jsSub_anti _ _

theorem rcmp_total : ∀ x y : String, (rcmp x y).isLE = true ∨ (rcmp y x).isLE = true := by
  intro x y
  have hneg : rcmp y x = (rcmp x y).neg := rcmpAux_anti _ _
  rcases cmpRes_isLE_total (rcmp x y) with h1 | h1
  · exact Or.inl h1
  · right
    rw [hneg]
    exact h1

theorem isLE_iff_sign (r : CmpRes) : r.isLE = true ↔ cmpSign r ≠ .gt := by
  cases r with
  | fin q =>
    rcases lt_trichotomy q 0 with h | h | h
    · simp [CmpRes.isLE, cmpSign, h, h.le]
    · subst h
      simp [CmpRes.isLE, cmpSign]
    · simp [CmpRes.isLE, cmpSign, not_lt.mpr h.le, not_le.mpr h, h]
  | posInf => simp [CmpRes.isLE, cmpSign]
  | negInf => simp [CmpRes.isLE, cmpSign]

theorem isLT_iff_sign (r : CmpRes) : r.isLT = true ↔ cmpSign r = .lt := by
  cases r with
  | fin q =>
    rcases lt_trichotomy q 0 with h | h | h
    · simp [CmpRes.isLT, cmpSign, h]
    · subst h
      simp [CmpRes.isLT, cmpSign]
    · simp [CmpRes.isLT, cmpSign, not_lt.mpr h.le, not_le.mpr h, h]
  | posInf => simp [CmpRes.isLT, cmpSign]
  | negInf => simp [CmpRes.isLT, cmpSign]

theorem rcmpAux_pure : ∀ xs ys : List ℕ,
    cmpSign (rcmpAux (xs.map pureSlot) (ys.map pureSlot)) = (vcmp xs ys).swap := by
  intro xs
  induction xs with
  | nil =>
    intro ys
    induction ys with
    | nil => simp [rcmpAux, rcmpNil, vcmp, vcmpNil, cmpSign, Ordering.swap]
    | cons b bs ih =>
      simp only [List.map_cons, List.map_nil]
      simp only [List.map_nil] at ih
      simp only [rcmpAux, rcmpNil, vcmp, vcmpNil]
      simp only [rcmpAux, rcmpNil, vcmp, vcmpNil] at ih
      by_cases hb : b = 0
      · rw [if_pos (by simp [jsOr0, pureSlot, hb]), if_pos hb]
        exact ih
      · rw [if_neg (by simp [jsOr0, pureSlot, Nat.cast_eq_zero]; exact hb), if_neg hb]
        have hbq : (0 : ℚ) < (b : ℚ) := by exact_mod_cast Nat.pos_of_ne_zero hb
        simp [jsOr0, pureSlot, jsSub, cmpSign, ratSub_eq, Ordering.swap,
          not_lt.mpr hbq.le, hbq]
  | cons a as ih =>
    intro ys
    cases ys with
    | nil =>
      simp only [List.map_cons, List.map_nil]
      simp only [rcmpAux, vcmp]
      by_cases ha : a = 0
      · rw [if_pos (by simp [jsOr0, pureSlot, ha]), if_pos ha]
        have := ih []
        simpa using this
      · rw [if_neg (by simp [jsOr0, pureSlot, Nat.cast_eq_zero]; exact ha), if_neg ha]
        have haq : (0 : ℚ) < (a : ℚ) := by exact_mod_cast Nat.pos_of_ne_zero ha
        simp [jsOr0, pureSlot, jsSub, cmpSign, ratSub_eq, Ordering.swap,
          sub_neg.mpr haq, haq]
    | cons b bs =>
      simp only [List.map_cons]
      simp only [rcmpAux, vcmp]
      by_cases hab : a = b
      · rw [if_pos (by simp [jsOr0, pureSlot, hab]), if_pos hab]
        exact ih bs
      · rw [if_neg (by simp [jsOr0, pureSlot, Nat.cast_inj]; exact hab), if_neg hab]
        by_cases hlt : a < b
        · have hq : (a : ℚ) < (b : ℚ) := by exact_mod_cast hlt
          rw [if_pos hlt]
          simp [jsOr0, pureSlot, jsSub, cmpSign, ratSub_eq, Ordering.swap,
            sub_pos.mpr hq, not_lt.mpr (sub_pos.mpr hq).le]
        · have hq : (b : ℚ) < (a : ℚ) := by
            have : b < a := by omega
            exact_mod_cast this
          rw [if_neg hlt]
          simp [jsOr0, pureSlot, jsSub, cmpSign, ratSub_eq, Ordering.swap,
            sub_neg.mpr hq]

theorem takeWhile_of_all {p : Char → Bool} :
    ∀ l : List Char, l.all p = true → l.takeWhile p = l := by
  intro l
  induction l with
  | nil => intro _; rfl
  | cons c cs ih =>
    intro h
    simp only [List.all_cons, Bool.and_eq_true] at h
    simp [List.takeWhile, h.1, ih h.2]

theorem dropWhile_of_none {p : Char → Bool} :
    ∀ l : List Char, (∀ c ∈ l, p c = false) → l.dropWhile p = l := by
  intro l h
  cases l with
  | nil => rfl
  | cons c cs => simp [List.dropWhile, h c (by simp)]

theorem jsTrimList_of_no_ws {l : List Char}
    (h : ∀ c ∈ l, jsIsWhitespace c = false) : jsTrimList l = l := by
  unfold jsTrimList
  rw [dropWhile_of_none l h, dropWhile_of_none l.reverse (fun c hc => h c (by simpa using hc)),
    List.reverse_reverse]

theorem digit_not_ws (ch : Char) (h : isAsciiDigit ch = true) :
    jsIsWhitespace ch = false := by
  by_contra hws
  rw [Bool.not_eq_false] at hws
  simp only [jsIsWhitespace, Bool.or_eq_true, decide_eq_true_eq, or_assoc] at hws
  rcases hws with h' | h' | h' | h' | h' | h' | h' | h' | h' | h' <;>
    subst h' <;> exact absurd h (by decide)

theorem parseDecTail_digits (c : List Char) (hne : c ≠ [])
    (hall : c.all isAsciiDigit = true) :
    parseDecTail c = some ((digitsVal c : ℚ)) := by
  unfold parseDecTail
  simp only [takeWhile_of_all c hall, List.drop_length]
  rw [if_neg hne]

theorem parseUnsignedNum_digits (c : List Char) (hne : c ≠ [])
    (hall : c.all isAsciiDigit = true) :
    parseUnsignedNum c = some (.fin (digitsVal c)) := by
  have hdec := parseDecTail_digits c hne hall
  unfold parseUnsignedNum
  rw [if_neg ?hinf]
  case hinf =>
    intro heq
    have : 'I' ∈ c := by rw [heq]; simp
    have := List.all_eq_true.mp hall 'I' this
    exact absurd this (by decide)
  split
  · rename_i x rest
    have hx : isAsciiDigit x = true := List.all_eq_true.mp hall x (by simp)
    rw [if_neg ?hxx, if_neg ?hoo, if_neg ?hbb]
    case hxx => rintro (rfl | rfl) <;> exact absurd hx (by decide)
    case hoo => rintro (rfl | rfl) <;> exact absurd hx (by decide)
    case hbb => rintro (rfl | rfl) <;> exact absurd hx (by decide)
    rw [hdec]
    rfl
  · rw [hdec]
    rfl

theorem jsNumberList_digits (c : List Char) (hne : c ≠ [])
    (hall : c.all isAsciiDigit = true) :
    jsNumberList c = some (.fin (digitsVal c)) := by
  have htrim : jsTrimList c = c :=
    jsTrimList_of_no_ws (fun ch hch => digit_not_ws ch (List.all_eq_true.mp hall ch hch))
  have hpu := parseUnsignedNum_digits c hne hall
  unfold jsNumberList
  simp only [htrim]
  rw [if_neg hne]
  split
  · rename_i rest
    have := List.all_eq_true.mp hall '+' (by simp)
    exact absurd this (by decide)
  · rename_i rest
    have := List.all_eq_true.mp hall '-' (by simp)
    exact absurd this (by decide)
  · exact hpu

theorem splitOnChars_ne_nil {p : Char → Bool} :
    ∀ l : List Char, splitOnChars p l ≠ [] := by
  intro l
  cases l with
  | nil => simp [splitOnChars]
  | cons c rest =>
    simp only [splitOnChars]
    split_ifs
    · simp
    · split <;> simp

theorem splitOnChars_mem {p : Char → Bool} :
    ∀ (l : List Char) (c : Char), c ∈ l →
      p c = true ∨ ∃ comp ∈ splitOnChars p l, c ∈ comp := by
  intro l
  induction l with
  | nil => intro c hc; simp at hc
  | cons d rest ih =>
    intro c hc
    rcases List.mem_cons.mp hc with hcd | hcr
    · subst hcd
      by_cases hp : p c = true
      · exact Or.inl hp
      · right
        simp only [splitOnChars, hp, if_false]
        rcases hr : splitOnChars p rest with _ | ⟨h, t⟩
        · exact absurd hr (splitOnChars_ne_nil rest)
        · exact ⟨c :: h, by simp⟩
    · rcases ih c hcr with hp | ⟨comp, hcomp, hcc⟩
      · exact Or.inl hp
      · right
        simp only [splitOnChars]
        split_ifs with hd
        · exact ⟨comp, by simp [hcomp], hcc⟩
        · rcases hr : splitOnChars p rest with _ | ⟨h, t⟩
          · exact absurd hr (splitOnChars_ne_nil rest)
          · rw [hr] at hcomp
            rcases List.mem_cons.mp hcomp with hch | hct
            · exact ⟨d :: h, by simp, by simp [← hch, hcc]⟩
            · exact ⟨comp, by simp [hct], hcc⟩

theorem splitOnChars_sep {p : Char → Bool} :
    ∀ l : List Char, 2 ≤ (splitOnChars p l).length → ∃ c ∈ l, p c = true := by
  intro l
  induction l with
  | nil => intro h; simp [splitOnChars] at h
  | cons d rest ih =>
    intro h
    by_cases hd : p d = true
    · exact ⟨d, by simp, hd⟩
    · have hlen : (splitOnChars p (d :: rest)).length = (splitOnChars p rest).length := by
        rcases hr : splitOnChars p rest with _ | ⟨hh, t⟩
        · exact absurd hr (splitOnChars_ne_nil rest)
        · simp [splitOnChars, hd, hr]
      rw [hlen] at h
      rcases ih h with ⟨c, hc, hpc⟩
      exact ⟨c, by simp [hc], hpc⟩

theorem splitOnChars_congr {p q : Char → Bool} :
    ∀ l : List Char, (∀ c ∈ l, p c = q c) → splitOnChars p l = splitOnChars q l := by
  intro l
  induction l with
  | nil => intro _; rfl
  | cons d rest ih =>
    intro h
    have hd : p d = q d := h d (by simp)
    have hrest := ih (fun c hc => h c (List.mem_cons_of_mem _ hc))
    simp only [splitOnChars, hrest, hd]

theorem stripV_cases (l : List Char) :
    stripV l = l ∨ ∃ c r, l = c :: r ∧ (c = 'v' ∨ c = 'V') ∧ stripV l = r := by
  cases l with
  | nil => exact Or.inl rfl
  | cons c r =>
    by_cases hv : c = 'v' ∨ c = 'V'
    · exact Or.inr ⟨c, r, rfl, hv, by simp [stripV, hv]⟩
    · exact Or.inl (by simp [stripV, hv])

theorem pure_chars {s : String} (hp : pureNumericTag s = true) :
    ∀ c ∈ stripV s.data, isAsciiDigit c = true ∨ c = '.' := by
  intro c hc
  rcases @splitOnChars_mem (fun c => decide (c = '.')) (stripV s.data) c hc with hdot | hcomp
  · right
    simpa using hdot
  · left
    obtain ⟨comp, hcomp, hcc⟩ := hcomp
    simp only [pureNumericTag, Bool.and_eq_true, List.all_eq_true] at hp
    have h2 := hp.2 comp hcomp
    simp only [Bool.and_eq_true, List.all_eq_true] at h2
    exact h2.2 c hcc

theorem digit_ne_of {c : Char} (h : isAsciiDigit c = true) {d : Char}
    (hd : isAsciiDigit d = false) : c ≠ d := by
  intro he
  subst he
  rw [h] at hd
  simp at hd

theorem jsToLowerChar_digit {c : Char} (h : isAsciiDigit c = true) :
    jsToLowerChar c = c := by
  simp only [isAsciiDigit, Bool.and_eq_true, decide_eq_true_eq] at h
  unfold jsToLowerChar
  rw [if_neg]
  rintro ⟨h1, _⟩
  exact absurd (le_trans h1 h.2) (by decide)

theorem pure_ne_empty {s : String} (hp : pureNumericTag s = true) : s ≠ "" := by
  intro he
  subst he
  exact absurd hp (by decide)

theorem pure_no_ws {s : String} (hp : pureNumericTag s = true) :
    ∀ c ∈ s.data, jsIsWhitespace c = false := by
  intro c hc
  have hcls : c ∈ stripV s.data → jsIsWhitespace c = false := by
    intro hcs
    rcases pure_chars hp c hcs with hdig | rfl
    · exact digit_not_ws c hdig
    · decide
  rcases stripV_cases s.data with hid | ⟨v, r, hl, hv, hsv⟩
  · exact hcls (by rw [hid]; exact hc)
  · rw [hl] at hc
    rcases List.mem_cons.mp hc with rfl | hcr
    · rcases hv with rfl | rfl <;> decide
    · exact hcls (by rw [hsv]; exact hcr)

theorem jsTrim_pure {s : String} (hp : pureNumericTag s = true) : jsTrim s = s := by
  unfold jsTrim
  rw [jsTrimList_of_no_ws (pure_no_ws hp)]

theorem vNormalize_pure {s : String} (hp : pureNumericTag s = true) :
    vNormalize (some s) = some s := by
  unfold vNormalize
  dsimp only
  rw [if_neg (pure_ne_empty hp), jsTrim_pure hp]

theorem pure_not_latest {s : String} (hp : pureNumericTag s = true) :
    isLatest (some s) = false := by
  unfold isLatest
  rw [vNormalize_pure hp]
  refine decide_eq_false ?_
  intro heq
  have hmem : 'a' ∈ (jsToLower s).data := by
    rw [heq]
    decide
  simp only [jsToLower] at hmem
  rcases List.mem_map.mp hmem with ⟨c, hc, hlc⟩
  have hcls : c ∈ stripV s.data → False := by
    intro hcs
    rcases pure_chars hp c hcs with hdig | rfl
    · rw [jsToLowerChar_digit hdig] at hlc
      subst hlc
      exact absurd hdig (by decide)
    · exact absurd hlc (by decide)
  rcases stripV_cases s.data with hid | ⟨v, r, hl, hv, hsv⟩
  · exact hcls (by rw [hid]; exact hc)
  · rw [hl] at hc
    rcases List.mem_cons.mp hc with rfl | hcr
    · rcases hv with rfl | rfl <;> exact absurd hlc (by decide)
    · exact hcls (by rw [hsv]; exact hcr)

theorem pure_has_dot {s : String} (hp : pureNumericTag s = true) :
    '.' ∈ s.data := by
  have hlen : 2 ≤ (digitComps s).length := by
    simp only [pureNumericTag, Bool.and_eq_true, decide_eq_true_eq] at hp
    exact hp.1
  rcases splitOnChars_sep (stripV s.data) hlen with ⟨c, hc, hpc⟩
  have : c = '.' := by simpa using hpc
  subst this
  rcases stripV_cases s.data with hid | ⟨v, r, hl, _, hsv⟩
  · exact hid ▸ hc
  · rw [hl]
    exact List.mem_cons_of_mem _ (hsv ▸ hc)

theorem pure_not_digest {s : String} (hp : pureNumericTag s = true) :
    isDigest s = false := by
  by_contra hd
  rw [Bool.not_eq_false] at hd
  simp only [isDigest, Bool.and_eq_true, List.all_eq_true] at hd
  have := hd.2 '.' (pure_has_dot hp)
  exact absurd this (by decide)

theorem segmentify_eq (s : String) :
    segmentify s =
      ((splitOnChars (fun c => c = '.' ∨ c = '_')
        ((stripV s.data).takeWhile (fun c => ¬ (c = '+' ∨ c = '-')))).filter
          (· ≠ [])).map segOf := by
  unfold segmentify stripV
  cases hd : s.data with
  | nil => rfl
  | cons c rest =>
    by_cases hv : c = 'v' ∨ c = 'V' <;> simp [hv]

theorem segmentify_pure {s : String} (hp : pureNumericTag s = true) :
    segmentify s = (pureVals s).map natSeg := by
  rw [segmentify_eq]
  have h1 : (stripV s.data).takeWhile (fun c => ¬ (c = '+' ∨ c = '-')) = stripV s.data := by
    refine takeWhile_of_all _ ?_
    rw [List.all_eq_true]
    intro c hc
    simp only [decide_eq_true_eq]
    rcases pure_chars hp c hc with hdig | rfl
    · rintro (rfl | rfl) <;> exact absurd hdig (by decide)
    · rintro (h | h) <;> exact absurd h (by decide)
  rw [h1]
  have h2 : splitOnChars (fun c => c = '.' ∨ c = '_') (stripV s.data) =
      splitOnChars (fun c => c = '.') (stripV s.data) := by
    refine splitOnChars_congr _ ?_
    intro c hc
    rcases pure_chars hp c hc with hdig | rfl
    · have hn1 : c ≠ '.' := digit_ne_of hdig (by decide)
      have hn2 : c ≠ '_' := digit_ne_of hdig (by decide)
      simp [hn1, hn2]
    · simp
  rw [h2]
  have hcomps : ∀ comp ∈ splitOnChars (fun c => c = '.') (stripV s.data),
      comp ≠ [] ∧ comp.all isAsciiDigit = true := by
    intro comp hcomp
    simp only [pureNumericTag, Bool.and_eq_true, List.all_eq_true] at hp
    have h3 := hp.2 comp hcomp
    simp only [Bool.and_eq_true, decide_eq_true_eq] at h3
    exact ⟨h3.1, List.all_eq_true.mpr h3.2⟩
  have h4 : (splitOnChars (fun c => c = '.') (stripV s.data)).filter (· ≠ []) =
      splitOnChars (fun c => c = '.') (stripV s.data) := by
    rw [List.filter_eq_self]
    intro comp hcomp
    simp [(hcomps comp hcomp).1]
  rw [h4]
  simp only [pureVals, digitComps, List.map_map]
  refine List.map_congr_left ?_
  intro comp hcomp
  rcases hcomps comp hcomp with ⟨hne, hall⟩
  simp only [Function.comp_apply, segOf, natSeg]
  rw [jsNumberList_digits comp hne hall]

theorem cmpSegs_natSeg_lt :
    ∀ xs ys : List ℕ, vcmp xs ys = .lt →
      (cmpSegs (xs.map natSeg) (ys.map natSeg)).isLT = true := by
  intro xs
  induction xs with
  | nil =>
    intro ys hv
    cases ys with
    | nil => simp [vcmp, vcmpNil] at hv
    | cons y ys' => simp [cmpSegs, CmpRes.isLT]
  | cons x xs' ih =>
    intro ys hv
    cases ys with
    | nil => exact absurd hv (vcmp_nil_right_ne_lt _)
    | cons y ys' =>
      simp only [List.map_cons, cmpSegs]
      by_cases hxy : x = y
      · subst hxy
        rw [if_pos (by simp [segEq, natSeg])]
        simp only [vcmp, if_pos rfl] at hv
        exact ih ys' hv
      · rw [if_neg (by simp [segEq, natSeg, Nat.cast_inj]; exact hxy)]
        simp only [vcmp, if_neg hxy] at hv
        have hlt : x < y := by
          by_cases h : x < y
          · exact h
          · rw [if_neg h] at hv
            simp at hv
        have hq : (x : ℚ) < (y : ℚ) := by exact_mod_cast hlt
        simp [natSeg, jsSub, CmpRes.isLT, ratSub_eq, sub_neg.mpr hq]

theorem ordering_swap_eq_gt (o : Ordering) : o.swap = .gt ↔ o = .lt := by
  cases o <;> simp [Ordering.swap]

theorem rcmp_comps_pure {s : String} (hp : pureNumericTag s = true) :
    (splitOnChars (· = '.') (stripV s.data)).map jsNumberList =
      (pureVals s).map pureSlot := by
  simp only [pureVals, digitComps, List.map_map]
  refine List.map_congr_left ?_
  intro comp hcomp
  simp only [pureNumericTag, Bool.and_eq_true, List.all_eq_true] at hp
  have h3 := hp.2 comp hcomp
  simp only [Bool.and_eq_true, decide_eq_true_eq] at h3
  rw [Function.comp_apply, jsNumberList_digits comp h3.1 (List.all_eq_true.mpr h3.2)]
  rfl

theorem rcmp_pure {a b : String} (ha : pureNumericTag a = true)
    (hb : pureNumericTag b = true) :
    cmpSign (rcmp a b) = (vcmp (pureVals a) (pureVals b)).swap := by
  unfold rcmp
  rw [rcmp_comps_pure ha, rcmp_comps_pure hb]
  exact rcmpAux_pure _ _

theorem rcmp_pure_isLE {a b : String} (ha : pureNumericTag a = true)
    (hb : pureNumericTag b = true) :
    (rcmp a b).isLE = true ↔ vcmp (pureVals a) (pureVals b) ≠ .lt := by
  rw [isLE_iff_sign, rcmp_pure ha hb]
  cases h : vcmp (pureVals a) (pureVals b) <;> simp [Ordering.swap]

theorem compareVersions_pure {a b : String} (ha : pureNumericTag a = true)
    (hb : pureNumericTag b = true) (hne : a ≠ b)
    (hv : vcmp (pureVals a) (pureVals b) = .lt) :
    (compareVersions (some a) (some b)).isLT = true := by
  unfold compareVersions
  rw [vNormalize_pure ha, vNormalize_pure hb]
  have hfa : jsFalsy (some a) = false := by
    simp [jsFalsy]
    exact pure_ne_empty ha
  have hfb : jsFalsy (some b) = false := by
    simp [jsFalsy]
    exact pure_ne_empty hb
  rw [if_neg (by rintro ⟨h1, _⟩; rw [hfa] at h1; simp at h1),
    if_neg (by intro h1; rw [hfa] at h1; simp at h1),
    if_neg (by intro h1; rw [hfb] at h1; simp at h1)]
  simp only [Option.getD_some]
  unfold compareCore
  rw [if_neg hne,
    if_neg (by rintro ⟨h1, _⟩; rw [pure_not_latest ha] at h1; simp at h1),
    if_neg (by rintro ⟨h1, _⟩; rw [pure_not_latest hb] at h1; simp at h1),
    if_neg (by rintro ⟨h1, _⟩; rw [pure_not_digest ha] at h1; simp at h1),
    if_neg (by rintro ⟨h1, _⟩; rw [pure_not_digest ha] at h1; simp at h1),
    if_neg (by rintro ⟨h1, _⟩; rw [pure_not_digest hb] at h1; simp at h1)]
  rw [segmentify_pure ha, segmentify_pure hb]
  exact cmpSegs_natSeg_lt _ _ hv

theorem processTags_snd (nd : List Char) :
    ∀ (ts : List TagResult) (f : Option String) (sv : List String),
      (processTags nd ts (f, sv)).2 = sv ++ semNames nd ts := by
  intro ts
  induction ts with
  | nil => intro f sv; simp [processTags, semNames]
  | cons t rest ih =>
    intro f sv
    simp only [processTags]
    by_cases hm : tagMatches nd t = true
    · rw [if_pos hm]
      by_cases hs : isSemanticVersion t.name = true
      · rw [if_pos hs, ih]
        simp [semNames, hm, hs, List.filter_cons]
      · rw [if_neg hs]
        by_cases hf : f = none ∧ t.name ≠ "latest"
        · rw [if_pos hf, ih]
          simp [semNames, List.filter_cons, hm, hs]
        · rw [if_neg hf, ih]
          simp [semNames, List.filter_cons, hm, hs]
    · rw [if_neg hm, ih]
      simp [semNames, List.filter_cons, hm]

theorem processTags_fst_some (nd : List Char) :
    ∀ (ts : List TagResult) (x : String) (sv : List String),
      (processTags nd ts (some x, sv)).1 = some x := by
  intro ts
  induction ts with
  | nil => intro x sv; simp [processTags]
  | cons t rest ih =>
    intro x sv
    simp only [processTags]
    by_cases hm : tagMatches nd t = true
    · rw [if_pos hm]
      by_cases hs : isSemanticVersion t.name = true
      · rw [if_pos hs, ih]
      · rw [if_neg hs, if_neg (by rintro ⟨h1, _⟩; simp at h1), ih]
    · rw [if_neg hm, ih]

theorem processTags_fst (nd : List Char) :
    ∀ (ts : List TagResult) (sv : List String),
      (processTags nd ts (none, sv)).1 = fallbackName nd ts := by
  intro ts
  induction ts with
  | nil => intro sv; simp [processTags, fallbackName]
  | cons t rest ih =>
    intro sv
    simp only [processTags]
    by_cases hm : tagMatches nd t = true
    · rw [if_pos hm]
      by_cases hs : isSemanticVersion t.name = true
      · rw [if_pos hs, ih]
        simp [fallbackName, List.find?_cons, hm, hs]
      · rw [if_neg hs]
        by_cases hl : t.name = "latest"
        · rw [if_neg (by rintro ⟨_, h2⟩; exact h2 hl), ih]
          simp [fallbackName, List.find?_cons, hm, hs, hl]
        · rw [if_pos (by simp [hl]), processTags_fst_some]
          simp [fallbackName, List.find?_cons, hm, hs, hl]
    · rw [if_neg hm, ih]
      simp [fallbackName, List.find?_cons, hm]

theorem chain_head_min {α : Type} (c : α → α → CmpRes) :
    ∀ (l : List α),
      List.Chain' (fun a b => (c a b).isLE = true) l →
      (∀ x ∈ l, ∀ y ∈ l, ∀ z ∈ l,
        (c x y).isLE = true → (c y z).isLE = true → (c x z).isLE = true) →
      ∀ h, l.head? = some h → ∀ x ∈ l, (c h x).isLE = true ∨ h = x := by
  intro l
  induction l with
  | nil => intro _ _ h hh; simp at hh
  | cons a as ih =>
    intro hch htrans h hh x hx
    have ha : h = a := by simpa [eq_comm] using hh
    rw [ha]
    rcases List.mem_cons.mp hx with rfl | hxs
    · exact Or.inr rfl
    · cases as with
      | nil => simp at hxs
      | cons b bs =>
        have hab : (c a b).isLE = true := (List.chain'_cons.mp hch).1
        have hch2 : List.Chain' (fun u v => (c u v).isLE = true) (b :: bs) :=
          (List.chain'_cons.mp hch).2
        have htrans2 : ∀ x ∈ b :: bs, ∀ y ∈ b :: bs, ∀ z ∈ b :: bs,
            (c x y).isLE = true → (c y z).isLE = true → (c x z).isLE = true := by
          intro u hu v hv w hw
          exact htrans u (List.mem_cons_of_mem _ hu) v (List.mem_cons_of_mem _ hv)
            w (List.mem_cons_of_mem _ hw)
        rcases ih hch2 htrans2 b rfl x hxs with hbx | hbx
        · left
          exact htrans a (by simp) b (by simp) x (List.mem_cons_of_mem _ hxs) hab hbx
        · left
          rw [← hbx]
          exact hab

theorem dhLoop_onePage (results : List TagResult) (nd : List Char) :
    ∀ (k page n : ℕ) (st : Option String × List String),
      dhLoop (onePage results) nd (k + 1) page st n =
        (some (processTags nd results st), n + 1) := by
  intro k page n st
  unfold dhLoop
  simp only [onePage]
  dsimp only
  by_cases hnil : results = []
  · rw [if_pos hnil]
    subst hnil
    rfl
  · rw [if_neg hnil, if_pos (by simp [jsFalsy])]

theorem onePage_result (results : List TagResult) (cache : TagCache) (now : Int)
    (ref : ImageReference) (digest : String) :
    dhResolveBody (onePage results) cache now ref digest =
      { result := finalizeTagChoice
          (processTags (stripShaAnchor digest.data) results (none, [])),
        cache := setAssoc cache (dhCacheKey ref digest)
          (finalizeTagChoice (processTags (stripShaAnchor digest.data) results (none, [])),
            now + yearTtlMs),
        fetches := 1 } := by
  unfold dhResolveBody
  have hl : dhLoop (onePage results) (stripShaAnchor digest.data) 5 1 (none, []) 0 =
      (some (processTags (stripShaAnchor digest.data) results (none, [])), 1) :=
    dhLoop_onePage results (stripShaAnchor digest.data) 4 1 0 (none, [])
  rw [hl]

theorem ordering_swap_eq_lt (o : Ordering) : o.swap = .lt ↔ o = .gt := by
  cases o <;> simp [Ordering.swap]

theorem vcmp_ne_lt_iff (a b : List ℕ) : vcmp a b ≠ .lt ↔ vcmp b a ≠ .gt := by
  rw [vcmp_swap b a]
  constructor
  · intro h hgt
    exact h ((ordering_swap_eq_lt _).mpr hgt)
  · intro h hlt
    exact h ((ordering_swap_eq_lt _).mp hlt)

/-- C6 (amended): among the digest-matching tags of a results page, the
Docker Hub resolver prefers semantic-shaped tags — when any exist the
chosen tag is one of them, and when none exist it returns the first
matching non-semantic, non-`latest` tag.  Among semantic-shaped matches
the winner is maximal under the resolver's own numeric component order
`rcmp`; this agrees with `compareVersions` when the matched tags are
purely numeric and tie-free, but not in general (see the counterexample):
`rcmp` coerces non-numeric dot components such as `3-beta` to `0`, while
`compareVersions` compares digit groups after cutting at `-`. -/
theorem c6_digest_tag_selection_amended :
    ∀ (results : List TagResult) (cache : TagCache) (now : Int)
      (ref : ImageReference) (digest : String),
      (semNames (stripShaAnchor digest.data) results ≠ [] →
        ∃ name ∈ semNames (stripShaAnchor digest.data) results,
          (dhResolveBody (onePage results) cache now ref digest).result = some name) ∧
      (semNames (stripShaAnchor digest.data) results = [] →
        (dhResolveBody (onePage results) cache now ref digest).result =
          fallbackName (stripShaAnchor digest.data) results) ∧
      (semNames (stripShaAnchor digest.data) results ≠ [] →
        (∀ name ∈ semNames (stripShaAnchor digest.data) results,
          pureNumericTag name = true) →
        (∀ m ∈ semNames (stripShaAnchor digest.data) results,
          ∀ k ∈ semNames (stripShaAnchor digest.data) results,
            m ≠ k → vcmp (pureVals m) (pureVals k) ≠ .eq) →
        ∀ name,
          (dhResolveBody (onePage results) cache now ref digest).result = some name →
          name ∈ semNames (stripShaAnchor digest.data) results ∧
          ∀ s ∈ semNames (stripShaAnchor digest.data) results, s ≠ name →
            (compareVersions (some s) (some name)).isLT = true) := by
  intro results cache now ref digest
  have hres0 := onePage_result results cache now ref digest
  generalize hnd : stripShaAnchor digest.data = nd at hres0 ⊢
  have hres : (dhResolveBody (onePage results) cache now ref digest).result =
      finalizeTagChoice (processTags nd results (none, [])) := by rw [hres0]
  have hsnd : (processTags nd results (none, [])).2 = semNames nd results := by
    rw [processTags_snd]
    simp
  have hfst : (processTags nd results (none, [])).1 = fallbackName nd results :=
    processTags_fst nd results []
  refine ⟨?_, ?_, ?_⟩
  · intro hne
    cases hs : jsSort rcmp (processTags nd results (none, [])).2 with
    | nil =>
      exfalso
      have hp := jsSort_perm rcmp (processTags nd results (none, [])).2
      rw [hs] at hp
      have h2 : (processTags nd results (none, [])).2 = [] := hp.symm.eq_nil
      rw [hsnd] at h2
      exact hne h2
    | cons v vs =>
      refine ⟨v, ?_, ?_⟩
      · rw [← hsnd]
        exact jsSort_mem.mp (by rw [hs]; simp)
      · rw [hres]
        unfold finalizeTagChoice
        rw [hs]
  · intro hnil
    rw [hres]
    unfold finalizeTagChoice
    rw [hsnd, hnil]
    simp only [jsSort]
    exact hfst
  · intro hne hpure hties name hname
    cases hs : jsSort rcmp (processTags nd results (none, [])).2 with
    | nil =>
      exfalso
      have hp := jsSort_perm rcmp (processTags nd results (none, [])).2
      rw [hs] at hp
      have h2 : (processTags nd results (none, [])).2 = [] := hp.symm.eq_nil
      rw [hsnd] at h2
      exact hne h2
    | cons v vs =>
      have hvn : v = name := by
        rw [hres] at hname
        unfold finalizeTagChoice at hname
        rw [hs] at hname
        dsimp only at hname
        exact Option.some.inj hname
      subst hvn
      have hvsorted : v ∈ jsSort rcmp (processTags nd results (none, [])).2 := by
        rw [hs]
        simp
      have hvmem : v ∈ semNames nd results := by
        rw [← hsnd]
        exact jsSort_mem.mp hvsorted
      refine ⟨hvmem, ?_⟩
      intro s hsmem hsne
      have hsmem2 : s ∈ jsSort rcmp (processTags nd results (none, [])).2 :=
        jsSort_mem.mpr (by rw [hsnd]; exact hsmem)
      have hmp : ∀ x ∈ jsSort rcmp (processTags nd results (none, [])).2,
          pureNumericTag x = true := by
        intro x hx
        exact hpure x (by rw [← hsnd]; exact jsSort_mem.mp hx)
      have hch := jsSort_chain rcmp rcmp_total (processTags nd results (none, [])).2
      have htrans : ∀ x ∈ jsSort rcmp (processTags nd results (none, [])).2,
          ∀ y ∈ jsSort rcmp (processTags nd results (none, [])).2,
          ∀ z ∈ jsSort rcmp (processTags nd results (none, [])).2,
          (rcmp x y).isLE = true → (rcmp y z).isLE = true →
            (rcmp x z).isLE = true := by
        intro x hx y hy z hz h1 h2
        rw [rcmp_pure_isLE (hmp x hx) (hmp y hy)] at h1
        rw [rcmp_pure_isLE (hmp y hy) (hmp z hz)] at h2
        rw [rcmp_pure_isLE (hmp x hx) (hmp z hz)]
        rw [vcmp_ne_lt_iff] at h1 h2 ⊢
        exact vcmp_le_trans h2 h1
      have hhead := chain_head_min rcmp _ hch htrans v (by rw [hs]; rfl) s hsmem2
      rcases hhead with hle | heq
      · rw [rcmp_pure_isLE (hmp v hvsorted) (hmp s hsmem2)] at hle
        have hne2 : v ≠ s := fun h => hsne h.symm
        have hties2 := hties v hvmem s hsmem hne2
        have hgt : vcmp (pureVals v) (pureVals s) = .gt := by
          cases h : vcmp (pureVals v) (pureVals s)
          · exact absurd h hle
          · exact absurd h hties2
          · rfl
        have hlt : vcmp (pureVals s) (pureVals v) = .lt := by
          rw [vcmp_swap, hgt]
          rfl
        exact compareVersions_pure (hmp s hsmem2) (hmp v hvsorted) hsne hlt
      · exact absurd heq.symm hsne

/-- C6 counterexample: both `1.2.3-beta` and `1.2.2` match the digest and
are semantic-shaped, yet the resolver returns `1.2.2` although
`compareVersions` orders `1.2.2` strictly below `1.2.3-beta` — the
resolver's ordering of semantic-shaped tags does not agree with the §4.3
comparator, because `Number("3-beta")` is `NaN` and is coerced to `0`. -/
theorem c6_counterexample :
    "1.2.3-beta" ∈ semNames (stripShaAnchor "sha256:d1".data) c6results ∧
    (dhResolveBody (onePage c6results) [] 0 c6ref "sha256:d1").result = some "1.2.2" ∧
    (compareVersions (some "1.2.2") (some "1.2.3-beta")).isLT = true := by
  decide

theorem c6_digest_tag_selection_amended_witness :
    semNames (stripShaAnchor "sha256:d2".data) c6wresults ≠ [] ∧
    "v1.2.10" ∈ semNames (stripShaAnchor "sha256:d2".data) c6wresults ∧
    (compareVersions (some "1.2.2") (some "v1.2.10")).isLT = true :=
  ⟨by decide,
   ((c6_digest_tag_selection_amended c6wresults [] 0 c6ref "sha256:d2").2.2
      (by decide) (by decide) (by decide) "v1.2.10" (by decide)).1,
   ((c6_digest_tag_selection_amended c6wresults [] 0 c6ref "sha256:d2").2.2
      (by decide) (by decide) (by decide) "v1.2.10" (by decide)).2
     "1.2.2" (by decide) (by decide)⟩

theorem jsSanitizeUrl_ne_empty {v : Option String} {u : String}
    (h : jsSanitizeUrl v = some u) : u ≠ "" := by
  intro he
  subst he
  cases v with
  | none => simp [jsSanitizeUrl] at h
  | some s =>
    simp only [jsSanitizeUrl] at h
    split_ifs at h with h1 h2 h3 <;> simp_all

theorem mapTier_ne_empty {m : List (String × String)} {k : String} {u : String}
    (h : mapTier m k = some u) : u ≠ "" := by
  unfold mapTier at h
  split at h
  · split_ifs at h with h1
    exact jsSanitizeUrl_ne_empty h
  · simp at h

theorem firstTruthy_none (b : Unit → Option String) : firstTruthy none b = b () := by
  unfold firstTruthy
  rw [if_pos (show jsFalsy none = true from rfl)]

theorem firstTruthy_some {a : Option String} {u : String} (b : Unit → Option String)
    (ha : a = some u) (hu : u ≠ "") : firstTruthy a b = some u := by
  unfold firstTruthy
  rw [ha, if_neg (by simp [jsFalsy, hu])]

/-- C8: when the label/hint tier yields no valid URL and the operator's
icon map has an entry for the exact image string — or, failing that, for
the normalized repository base — whose value is a valid http(s) URL,
`resolveIcon` returns that mapped URL; the outcome is identical under
every choice of CDN/registry provider oracle, i.e. no provider lookup can
affect it. -/
theorem c8_icon_map_overrides_providers :
    ∀ (p p2 : IconProviders) (iconMap : List (String × String))
      (ctx : MetadataContext) (u : String),
      jsSanitizeUrl (labelIconOf ctx) = none →
      iconMap ≠ [] →
      (exactTier iconMap ctx.image = some u ∨
        (exactTier iconMap ctx.image = none ∧ baseTier iconMap ctx.image = some u)) →
      resolveIcon p iconMap ctx = some u ∧
      resolveIcon p iconMap ctx = resolveIcon p2 iconMap ctx := by
  intro p p2 iconMap ctx u hlabel hmap hhit
  have hneu : u ≠ "" := by
    rcases hhit with h | ⟨_, h⟩
    · exact mapTier_ne_empty h
    · exact mapTier_ne_empty h
  have hmh : iconMapHit iconMap ctx.image = some u := by
    unfold iconMapHit
    rw [if_neg hmap]
    rcases hhit with h | ⟨hnone, h⟩
    · exact firstTruthy_some _ h hneu
    · have hft : firstTruthy (exactTier iconMap ctx.image)
          (fun _ => baseTier iconMap ctx.image) = baseTier iconMap ctx.image := by
        rw [hnone]
        exact firstTruthy_none _
      rw [hft]
      exact h
  have key : ∀ q : IconProviders, resolveIcon q iconMap ctx = some u := by
    intro q
    unfold resolveIcon
    rw [hlabel, firstTruthy_none]
    exact firstTruthy_some _ hmh hneu
  exact ⟨key p, (key p).trans (key p2).symm⟩

theorem c8_icon_map_overrides_providers_witness :
    jsSanitizeUrl (labelIconOf c8ctx) = none ∧
    baseTier c8map c8ctx.image = some "https://example.com/icons/pms.png" ∧
    resolveIcon c8prov1 c8map c8ctx = some "https://example.com/icons/pms.png" ∧
    resolveIcon c8prov1 c8map c8ctx = resolveIcon c8prov2 c8map c8ctx :=
  ⟨by decide, by decide,
   (c8_icon_map_overrides_providers c8prov1 c8prov2 c8map c8ctx
      "https://example.com/icons/pms.png" (by decide) (by decide)
      (Or.inr ⟨by decide, by decide⟩)).1,
   (c8_icon_map_overrides_providers c8prov1 c8prov2 c8map c8ctx
      "https://example.com/icons/pms.png" (by decide) (by decide)
      (Or.inr ⟨by decide, by decide⟩)).2⟩
